import Mathlib

/-!
Verification development for the gozip repository (package ziplib plus the
gozip/gounzip command shells).

The Go sources under ziplib/ are shallowly embedded below.  Path strings are
modelled as Lean `String`s whose character lists are manipulated exactly as Go
manipulates bytes of slash-separated Unix paths; the collaborating standard
library functions (`path/filepath.Clean`, `Join`, `Abs`, `Base`, `Dir`,
`Match`, `strings.HasPrefix`) are modelled character by character after their
documented Unix semantics, and the file system and archive codec are modelled
as explicit data (association lists and entry lists).  Every embedded function
is executable.
-/

deriving instance DecidableEq for Except

namespace Ziplib

/-! ## Character-level path helpers (Unix `path/filepath` model)

Go paths on Unix are byte strings with separator character `/`.  We model a
path as the list of characters of a `String`.  `splitSegs` splits a character
list at every separator (so `"a//b"` has segments `a`, ``, `b`), and
`joinSegs` is its inverse.
-/

/-- Split a character list at every slash character.  The result is always
nonempty; an empty input gives one empty segment, mirroring how Go views the
empty path. -/
def splitSegsAux (cur : List Char) : List Char → List (List Char)
  | [] => [cur.reverse]
  | c :: rest =>
    if c = '/' then cur.reverse :: splitSegsAux [] rest
    else splitSegsAux (c :: cur) rest

def splitSegs (cs : List Char) : List (List Char) :=
  splitSegsAux [] cs

/-- Join segments with a slash between consecutive segments. -/
def joinSegs : List (List Char) → List Char
  | [] => []
  | [s] => s
  | s :: t :: rest => s ++ '/' :: joinSegs (t :: rest)

/-- One element step of `filepath.Clean` on Unix.  `acc` is the
already-produced output in reverse order.  Empty and `.` segments are
dropped; `..` pops the previous output segment unless the output is empty
(where it is dropped when the path is rooted and kept otherwise) or itself
ends in `..`. -/
def cleanStep (rooted : Bool) (acc : List (List Char)) (s : List Char) :
    List (List Char) :=
  if s = [] ∨ s = ['.'] then acc
  else if s = ['.', '.'] then
    match acc with
    | [] => if rooted then [] else [['.', '.']]
    | a :: as => if a = ['.', '.'] then s :: acc else as
  else s :: acc

/-- The element-processing loop of `filepath.Clean` on Unix, expressed on the
list of path segments. -/
def cleanSegsLoop (rooted : Bool) (acc : List (List Char))
    (segs : List (List Char)) : List (List Char) :=
  segs.foldl (cleanStep rooted) acc

/-- Model of Go `path/filepath.Clean` on Unix, on character lists. -/
def cleanChars (cs : List Char) : List Char :=
  match cs with
  | [] => ['.']
  | c :: _ =>
    let rooted := c = '/'
    let out := (cleanSegsLoop rooted [] (splitSegs cs)).reverse
    let j := joinSegs out
    if rooted then (if j = [] then ['/'] else '/' :: j)
    else (if j = [] then ['.'] else j)

/-- Model of `filepath.Clean`. -/
def clean (s : String) : String := ⟨cleanChars s.data⟩

/-- Model of `filepath.IsAbs` on Unix: the path starts with a slash. -/
def isAbs (s : String) : Bool :=
  match s.data with
  | '/' :: _ => true
  | _ => false

/-- Model of the two-argument instance of `filepath.Join` on Unix: empty
elements are dropped, the rest are joined with a slash and cleaned. -/
def joinPath (a b : String) : String :=
  if a = "" then (if b = "" then "" else clean b) else clean (a ++ "/" ++ b)

/-- Model of `filepath.Abs`: absolute paths are cleaned, relative paths are
joined to the working directory `cwd` (Go reads it from the process state; the
embedding passes it explicitly). -/
def absPath (cwd : String) (s : String) : String :=
  if isAbs s then clean s else joinPath cwd s

/-- Model of `filepath.Base` on Unix, on character lists: strip trailing
slashes, then keep everything after the last slash. -/
def baseChars (cs : List Char) : List Char :=
  match cs with
  | [] => ['.']
  | _ :: _ =>
    let stripped := (cs.reverse.dropWhile (· = '/')).reverse
    if stripped = [] then ['/']
    else (stripped.reverse.takeWhile (· ≠ '/')).reverse

/-- Model of `filepath.Base`. -/
def basePath (s : String) : String := ⟨baseChars s.data⟩

/-- Model of `filepath.Dir` on Unix: everything up to and including the final
slash, cleaned. -/
def dirPath (s : String) : String :=
  ⟨cleanChars ((s.data.reverse.dropWhile (· ≠ '/')).reverse)⟩

/-- Model of `strings.HasPrefix s pre`. -/
def hasPrefix (s pre : String) : Bool :=
  decide (pre.data <+: s.data)

/-! ## Glob matching (Unix `filepath.Match` model)

`matchesAny` in ziplib/match.go delegates to `filepath.Match`, which is
modelled below character by character: `scanChunk` peels leading stars and one
literal chunk off the pattern, `matchChunk` matches a chunk against the head
of the name (with character classes parsed by `getEsc` and the range loop
`matchRanges`), and `matchGlob` is the main loop.  `ErrBadPattern` is modelled
as the `Except` error case.  `matchRanges` carries a length bound in its
result type; the bound is the termination certificate for `matchChunk` and
does not change the computed answer. -/


def getEsc : List Char → Except Unit (Char × List Char)
  | [] => .error ()
  | c :: rest =>
    if c = '-' ∨ c = ']' then .error ()
    else if c = '\\' then
      match rest with
      | [] => .error ()
      | r :: rest2 => if rest2 = [] then .error () else .ok (r, rest2)
    else if rest = [] then .error () else .ok (c, rest)

theorem getEsc_length {cs rest : List Char} {r : Char}
    (h : getEsc cs = .ok (r, rest)) : rest.length < cs.length := by
  match cs with
  | [] => simp [getEsc] at h
  | c :: cs' =>
    by_cases h1 : c = '-' ∨ c = ']'
    · simp [getEsc, h1] at h
    · by_cases h2 : c = '\\'
      · match cs' with
        | [] => simp [getEsc, h1, h2] at h
        | r' :: rest2 =>
          by_cases h3 : rest2 = []
          · simp [getEsc, h1, h2, h3] at h
          · simp [getEsc, h1, h2, h3] at h
            obtain ⟨hr, hrest⟩ := h
            subst hrest
            simp only [List.length_cons]
            omega
      · by_cases h3 : cs' = []
        · simp [getEsc, h1, h2, h3] at h
        · simp [getEsc, h1, h2, h3] at h
          obtain ⟨hr, hrest⟩ := h
          subst hrest
          simp

/-- matchRanges with an attached bound certifying that the returned chunk
remainder is strictly shorter than the input chunk. -/
def matchRanges (r : Char) (chunk : List Char) (mtch : Bool) (nrange : Nat) :
    Except Unit ({l : List Char // l.length < chunk.length} × Bool) :=
  if h0 : chunk.head? = some ']' ∧ 0 < nrange then
    .ok (⟨chunk.tail, by
      match chunk, h0 with
      | c :: cs, _ => simp⟩, mtch)
  else
    match h : getEsc chunk with
    | .error _ => .error ()
    | .ok (lo, chunk1) =>
      if chunk1.head? = some '-' then
        match h3 : getEsc chunk1.tail with
        | .error _ => .error ()
        | .ok (hi, chunk2) =>
          match matchRanges r chunk2 (mtch || decide (lo ≤ r ∧ r ≤ hi)) (nrange + 1) with
          | .error _ => .error ()
          | .ok (⟨rest, hrest⟩, b) =>
            .ok (⟨rest, by
              have hl1 := getEsc_length h
              have hl3 := getEsc_length h3
              have ht : chunk1.tail.length ≤ chunk1.length := by
                rw [List.length_tail]; omega
              omega⟩, b)
      else
        match matchRanges r chunk1 (mtch || decide (lo ≤ r ∧ r ≤ lo)) (nrange + 1) with
        | .error _ => .error ()
        | .ok (⟨rest, hrest⟩, b) =>
          .ok (⟨rest, by
            have hl1 := getEsc_length h
            omega⟩, b)
termination_by chunk.length
decreasing_by
  · have hl1 := getEsc_length h
    have hl3 := getEsc_length h3
    have ht : chunk1.tail.length ≤ chunk1.length := by
      rw [List.length_tail]; omega
    omega
  · have := getEsc_length h; omega

def matchChunk : List Char → List Char → Bool → Except Unit (List Char × Bool)
  | [], s, failed => if failed then .ok ([], false) else .ok (s, true)
  | '[' :: chunk1, s, failed =>
    let failed1 := failed || s.isEmpty
    let r := if failed1 then Char.ofNat 0 else s.headD (Char.ofNat 0)
    let s1 := if failed1 then s else s.tail
    let negated := chunk1.head? == some '^'
    match matchRanges r (if chunk1.head? == some '^' then chunk1.tail else chunk1) false 0 with
    | .error _ => .error ()
    | .ok (⟨chunk3, hc3⟩, mtch) =>
      matchChunk chunk3 s1 (failed1 || (mtch == negated))
  | '?' :: chunk1, s, failed =>
    let failed1 := failed || s.isEmpty
    if failed1 then matchChunk chunk1 s true
    else matchChunk chunk1 s.tail (s.headD (Char.ofNat 0) == '/')
  | '\\' :: chunk1, s, failed =>
    let failed1 := failed || s.isEmpty
    match chunk1 with
    | [] => .error ()
    | d :: chunk2 =>
      if failed1 then matchChunk chunk2 s true
      else matchChunk chunk2 s.tail (!(d == s.headD (Char.ofNat 0)))
  | c :: chunk1, s, failed =>
    let failed1 := failed || s.isEmpty
    if failed1 then matchChunk chunk1 s true
    else matchChunk chunk1 s.tail (!(c == s.headD (Char.ofNat 0)))
termination_by chunk _ _ => chunk.length
decreasing_by
  · split at hc3
    · rw [List.length_tail] at hc3
      simp only [List.length_cons]
      omega
    · simp only [List.length_cons]
      omega
  all_goals simp only [List.length_cons]; omega

def scanChunkLoop (inrange : Bool) : List Char → List Char × List Char
  | [] => ([], [])
  | c :: rest =>
    if c = '*' ∧ inrange = false then ([], c :: rest)
    else if c = '\\' then
      match rest with
      | [] => ([c], [])
      | d :: rest2 =>
        let p := scanChunkLoop inrange rest2
        (c :: d :: p.1, p.2)
    else
      let p := scanChunkLoop (if c = '[' then true else if c = ']' then false else inrange) rest
      (c :: p.1, p.2)

def scanChunk (pattern : List Char) : Bool × List Char × List Char :=
  let star := match pattern with | '*' :: _ => true | _ => false
  let p2 := pattern.dropWhile (· = '*')
  let p := scanChunkLoop false p2
  (star, p.1, p.2)

theorem scanChunkLoop_append : ∀ (N : Nat) (inrange : Bool) (p : List Char),
    p.length ≤ N → (scanChunkLoop inrange p).1 ++ (scanChunkLoop inrange p).2 = p := by
  intro N
  induction N with
  | zero =>
    intro inrange p hlen
    have hc : p = [] := List.length_eq_zero.mp (Nat.le_zero.mp hlen)
    subst hc
    simp [scanChunkLoop]
  | succ N ih =>
    intro inrange p hlen
    match p with
    | [] => simp [scanChunkLoop]
    | c :: rest =>
      rw [scanChunkLoop.eq_def]
      by_cases hstar : c = '*' ∧ inrange = false
      · simp [hstar]
      · by_cases hbs : c = '\\'
        · match rest with
          | [] => simp [hstar, hbs]
          | d :: rest2 =>
            simp [hstar, hbs]
            exact ih inrange rest2 (by simp at hlen; omega)
        · simp [hstar, hbs]
          exact ih _ rest (by simp at hlen; omega)

theorem scanChunkLoop_split (inrange : Bool) (p : List Char) :
    (scanChunkLoop inrange p).1 ++ (scanChunkLoop inrange p).2 = p :=
  scanChunkLoop_append p.length inrange p (Nat.le_refl _)

theorem scanChunkLoop_chunk_nil {p : List Char} (hhead : p.head? ≠ some '*')
    (h : (scanChunkLoop false p).1 = []) :
    p = [] ∧ (scanChunkLoop false p).2 = [] := by
  match p with
  | [] => exact ⟨rfl, rfl⟩
  | c :: rest =>
    have hc : ¬(c = '*') := by simpa using hhead
    rw [scanChunkLoop.eq_def] at h
    by_cases hbs : c = '\\'
    · match rest with
      | [] => simp [hc, hbs] at h
      | d :: rest2 => simp [hc, hbs] at h
    · simp [hc, hbs] at h

theorem scanChunk_rest_length (p : List Char) (hp : p ≠ []) :
    (scanChunk p).2.2.length < p.length := by
  unfold scanChunk
  simp only
  by_cases hc : (scanChunkLoop false (p.dropWhile (· = '*'))).1 = []
  · have hhead : (p.dropWhile (· = '*')).head? ≠ some '*' := by
      intro hmem
      have h2 := List.head?_dropWhile_not (· = '*') p
      rw [hmem] at h2
      simp at h2
    obtain ⟨h1, h2⟩ := scanChunkLoop_chunk_nil hhead hc
    rw [h2]
    simpa using List.length_pos.mpr hp
  · have happ := scanChunkLoop_split false (p.dropWhile (· = '*'))
    have hlen : (scanChunkLoop false (p.dropWhile (· = '*'))).1.length +
        (scanChunkLoop false (p.dropWhile (· = '*'))).2.length =
        (p.dropWhile (· = '*')).length := by
      rw [← List.length_append, happ]
    have hpos : 0 < (scanChunkLoop false (p.dropWhile (· = '*'))).1.length :=
      List.length_pos.mpr hc
    have hdw : (p.dropWhile (· = '*')).length ≤ p.length := by
      have hsub : List.Sublist (p.dropWhile (· = '*')) p := List.dropWhile_sublist _
      exact hsub.length_le
    omega

def matchStarLoop (chunk rest : List Char) : List Char → Except Unit (Option (List Char))
  | [] => .ok none
  | c :: tailn =>
    if c = '/' then .ok none
    else
      match matchChunk chunk tailn false with
      | .error _ => .error ()
      | .ok (t, ok) =>
        if ok then
          if rest = [] ∧ t ≠ [] then matchStarLoop chunk rest tailn
          else .ok (some t)
        else matchStarLoop chunk rest tailn

def checkRest : List Char → Except Unit Unit
  | [] => .ok ()
  | c :: rest =>
    match matchChunk (scanChunk (c :: rest)).2.1 [] false with
    | .error _ => .error ()
    | .ok _ => checkRest (scanChunk (c :: rest)).2.2
termination_by p => p.length
decreasing_by exact scanChunk_rest_length _ (by simp)

def matchGlob (pattern name : List Char) : Except Unit Bool :=
  match pattern with
  | [] => .ok name.isEmpty
  | c :: prest =>
    let sc := scanChunk (c :: prest)
    if sc.1 = true ∧ sc.2.1 = [] then
      .ok (!(name.contains '/'))
    else
      match matchChunk sc.2.1 name false with
      | .error _ => .error ()
      | .ok (t, ok) =>
        if ok = true ∧ (t = [] ∨ sc.2.2 ≠ []) then matchGlob sc.2.2 t
        else if sc.1 then
          match matchStarLoop sc.2.1 sc.2.2 name with
          | .error _ => .error ()
          | .ok (some t2) => matchGlob sc.2.2 t2
          | .ok none =>
            match checkRest sc.2.2 with
            | .error _ => .error ()
            | .ok _ => .ok false
        else
          match checkRest sc.2.2 with
          | .error _ => .error ()
          | .ok _ => .ok false
termination_by pattern.length
decreasing_by
  all_goals exact scanChunk_rest_length _ (by simp)

/-- Model of `filepath.Match` on strings. -/
def matchGlobStr (pattern name : String) : Except Unit Bool :=
  matchGlob pattern.data name.data

/-- ziplib/match.go `matchesAny`: reports whether `name` matches any of the
given glob patterns.  Matching is performed against `filepath.Base name`, and
a pattern counts only when `Match` returns a match with no error. -/
def matchesAny (name : String) (patterns : List String) : Bool :=
  patterns.any fun p =>
    match matchGlobStr p (basePath name) with
    | .ok true => true
    | _ => false

/-! ## Archive and option data (ziplib types)

The archive codec collaborator (`archive/zip` plus `compress/flate`) is
modelled as a list of entries carrying the decompressed content directly;
compression is tracked through the per-entry method and the registered
deflate level.  The status sink is modelled as the list of lines written to
it (a nil sink in Go discards the same lines). -/

inductive Method where
  | store
  | deflate
deriving DecidableEq

/-- One archive entry as seen by the reader: name, directory flag, Unix mode
bits, modification time, decompressed content, compression method and the
compressed size recorded by the codec. -/
structure ZipEntry where
  name : String
  isDir : Bool
  mode : Nat
  modified : Int
  content : String
  method : Method
  compressedSize : Nat
deriving DecidableEq

/-- `ziplib.ZipOptions` (the `Output` sink is implicit in the model). -/
structure ZipOptions where
  recursive : Bool
  compressionLevel : Int
  excludePatterns : List String

/-- `ziplib.UnzipOptions` (the `Output` sink is implicit in the model). -/
structure UnzipOptions where
  outputDir : String
  overwrite : Bool
  junkPaths : Bool
  filePatterns : List String

/-- `ziplib.ListEntry`. -/
structure ListEntry where
  name : String
  uncompressedSize : Nat
  compressedSize : Nat
  modified : Int
  isDir : Bool
deriving DecidableEq

/-! ## Source file tree (the file system walked by `Zip`)

`filepath.Walk` visits a directory tree; the tree is modelled as a nested
inductive with children listed in the (lexical) order `Walk` visits them. -/

mutual
inductive FSNode where
  | file (content : String) (mode : Nat) (mtime : Int)
  | dir (children : FSForest)
inductive FSForest where
  | nil
  | cons (name : String) (node : FSNode) (rest : FSForest)
end

/-! ## The archive writer (ziplib.go `Zip`, `addToZip`, `writeFileToZip`) -/

/-- ziplib.go `writeFileToZip`: build the header from the file info (name
converted to slash form — the identity on the Unix model — mode and
modification time), choose the method from the compression level, copy the
content and report one `adding` line. -/
def writeFileToZip (path : String) (content : String) (mode : Nat) (mtime : Int)
    (opts : ZipOptions) : ZipEntry × List String :=
  ({ name := path, isDir := false, mode := mode, modified := mtime,
     content := content,
     method := if opts.compressionLevel = 0 then .store else .deflate,
     compressedSize := 0 },
   ["  adding: " ++ path])

mutual
/-- The `filepath.Walk` callback of ziplib.go `addToZip` applied to one
visited node: an excluded directory is skipped with its whole subtree
(`filepath.SkipDir`), an excluded file is skipped alone, a directory itself
produces no entry, and every other file goes through `writeFileToZip`. -/
def walkNode (opts : ZipOptions) (path : String) : FSNode → List ZipEntry × List String
  | .file content mode mtime =>
    if matchesAny path opts.excludePatterns then ([], [])
    else
      let r := writeFileToZip path content mode mtime opts
      ([r.1], r.2)
  | .dir children =>
    if matchesAny path opts.excludePatterns then ([], [])
    else walkForest opts path children
/-- The walk over the children of a directory at `path`, in order. -/
def walkForest (opts : ZipOptions) (path : String) : FSForest → List ZipEntry × List String
  | .nil => ([], [])
  | .cons n node rest =>
    let a := walkNode opts (path ++ "/" ++ n) node
    let b := walkForest opts path rest
    (a.1 ++ b.1, a.2 ++ b.2)
end

/-- ziplib.go `addToZip`: stat the source path (the source file system is an
association list from path to tree node); a missing path is an error, a
directory is either skipped with a diagnostic (non-recursive) or walked, and
a file is written unless excluded. -/
def addToZip (roots : List (String × FSNode)) (path : String) (opts : ZipOptions) :
    Except String (List ZipEntry × List String) :=
  match roots.lookup path with
  | none => .error ("stat " ++ path)
  | some (.dir children) =>
    if !opts.recursive then
      .ok ([], ["  adding: " ++ path ++ "/ (skipped, not recursive)"])
    else
      .ok (walkNode opts path (.dir children))
  | some (.file content mode mtime) =>
    if matchesAny path opts.excludePatterns then .ok ([], [])
    else
      let r := writeFileToZip path content mode mtime opts
      .ok ([r.1], r.2)

/-- The loop of ziplib.go `Zip` over the source paths: the first error aborts
the archive, otherwise entries and output lines accumulate in order. -/
def zipAll (roots : List (String × FSNode)) (opts : ZipOptions) :
    List String → Except String (List ZipEntry × List String)
  | [] => .ok ([], [])
  | p :: rest =>
    match addToZip roots p opts with
    | .error e => .error e
    | .ok (es, out) =>
      match zipAll roots opts rest with
      | .error e => .error e
      | .ok (es2, out2) => .ok (es ++ es2, out ++ out2)

/-- The result of a successful `Zip` call: the archive entries, the status
output and the deflate level registered with the codec. -/
structure ZipResult where
  entries : List ZipEntry
  output : List String
  deflateLevel : Int
deriving DecidableEq

/-- ziplib.go `Zip`: normalise the compression level (out of range falls back
to the codec default `-1`), register the compressor, then add each source
path in turn. -/
def Zip (roots : List (String × FSNode)) (zipFiles : List String) (opts : ZipOptions) :
    Except String ZipResult :=
  let level := if opts.compressionLevel < -1 ∨ opts.compressionLevel > 9 then -1
    else opts.compressionLevel
  match zipAll roots opts zipFiles with
  | .error e => .error e
  | .ok (es, out) => .ok { entries := es, output := out, deflateLevel := level }

/-! ## The destination file system (the state written by `Unzip`) -/

/-- A regular file on the destination file system. -/
structure DiskFile where
  content : String
  mode : Nat
  mtime : Int
deriving DecidableEq

/-- The destination file system: partial maps from path to file and from path
to directory mode. -/
structure FS where
  files : String → Option DiskFile
  dirs : String → Option Nat

def emptyFS : FS := ⟨fun _ => none, fun _ => none⟩

/-- Model of `os.Stat` succeeding: something (file or directory) exists at
the path. -/
def statExists (fs : FS) (p : String) : Bool :=
  (fs.files p).isSome || (fs.dirs p).isSome

def prefixesAux (pre : String) : List String → List String
  | [] => []
  | s :: rest => (pre ++ s) :: prefixesAux (pre ++ s ++ "/") rest

/-- The chain of directory paths `os.MkdirAll` creates for a cleaned path:
every component-wise prefix of the path. -/
def pathPrefixes (p : String) : List String :=
  if isAbs p then prefixesAux "/" ((splitSegs (p.data.drop 1)).map fun cs => (⟨cs⟩ : String))
  else prefixesAux "" ((splitSegs p.data).map fun cs => (⟨cs⟩ : String))

/-- Model of `os.MkdirAll path mode`: every missing directory on the chain is
created with `mode`; existing directories are left as they are. -/
def mkdirAll (fs : FS) (path : String) (mode : Nat) : FS :=
  { fs with dirs := fun k =>
      if k ∈ pathPrefixes path ∧ fs.dirs k = none then some mode else fs.dirs k }

/-- Model of `os.OpenFile` with `O_CREATE ∣ O_WRONLY ∣ O_TRUNC` followed by
`io.Copy`: an existing file keeps its mode and is truncated to the new
content, a new file is created with the given mode. -/
def writeFileFS (fs : FS) (path content : String) (mode : Nat) : FS :=
  { fs with files := fun k =>
      if k = path then
        match fs.files path with
        | some old => some { old with content := content }
        | none => some { content := content, mode := mode, mtime := 0 }
      else fs.files k }

/-- Model of `os.Chtimes` as used by `Unzip` (both times set to the entry
modification time). -/
def chtimesFS (fs : FS) (path : String) (t : Int) : FS :=
  { fs with files := fun k =>
      if k = path then (fs.files path).map fun df => { df with mtime := t }
      else fs.files k }

/-! ## The extractor (ziplib.go `Unzip`, `extractFile`) -/

/-- ziplib.go `extractFile`: collision check when overwrite is off (`os.Stat`
succeeding on anything at the destination), parent creation with fixed mode
`0o755`, content copy with the entry mode, one `inflating` line. -/
def extractFile (fs : FS) (f : ZipEntry) (destPath : String) (overwrite : Bool) :
    Except String (FS × List String) :=
  if !overwrite && statExists fs destPath then
    .error ("file exists: " ++ destPath ++ " (use overwrite option)")
  else
    let fs1 := mkdirAll fs (dirPath destPath) 0o755
    let fs2 := writeFileFS fs1 destPath f.content f.mode
    .ok (fs2, ["  inflating: " ++ destPath])

/-- The pattern filter of ziplib.go line 138: an entry is skipped when the
pattern list is non-empty and the entry name matches none of the patterns. -/
def stepSkips (opts : UnzipOptions) (e : ZipEntry) : Bool :=
  decide (0 < opts.filePatterns.length) && !matchesAny e.name opts.filePatterns

/-- The target name of ziplib.go lines 142-145: the base name under
`JunkPaths`, the entry name otherwise. -/
def targetName (opts : UnzipOptions) (e : ZipEntry) : String :=
  if opts.junkPaths then basePath e.name else e.name

/-- The per-call context of `Unzip`: working directory, options, defaulted
output directory and its resolved absolute form (ziplib.go lines 121-129). -/
structure UnzipCtx where
  cwd : String
  opts : UnzipOptions
  outputDir : String
  absOutputDir : String

def mkCtx (cwd : String) (opts : UnzipOptions) : UnzipCtx :=
  let od := if opts.outputDir = "" then "." else opts.outputDir
  { cwd := cwd, opts := opts, outputDir := od, absOutputDir := absPath cwd od }

/-- ziplib.go line 147: the destination path of an entry. -/
def destPathOf (ctx : UnzipCtx) (e : ZipEntry) : String :=
  joinPath ctx.outputDir (targetName ctx.opts e)

/-- The zip-slip guard of ziplib.go lines 149-156: the resolved destination
either lies strictly inside the resolved output root (root plus separator is
a prefix) or equals it. -/
def destOk (ctx : UnzipCtx) (e : ZipEntry) : Bool :=
  let absDest := absPath ctx.cwd (destPathOf ctx e)
  hasPrefix absDest (ctx.absOutputDir ++ "/") || absDest == ctx.absOutputDir

/-- The body of the entry loop of ziplib.go `Unzip` (lines 137-173): filter,
junk paths, zip-slip guard, directory creation or file extraction, and
timestamp restoration. -/
def unzipStep (ctx : UnzipCtx) (fs : FS) (e : ZipEntry) : Except String (FS × List String) :=
  if stepSkips ctx.opts e then .ok (fs, [])
  else if !destOk ctx e then .error ("illegal file path: " ++ e.name)
  else if e.isDir then .ok (mkdirAll fs (destPathOf ctx e) e.mode, [])
  else
    match extractFile fs e (destPathOf ctx e) ctx.opts.overwrite with
    | .error msg => .error msg
    | .ok (fs2, out) => .ok (chtimesFS fs2 (destPathOf ctx e) e.modified, out)

/-- The entry loop of `Unzip`: entries are processed in archive order, the
first error aborts with the file system as it was before the failing entry
(entries already extracted stay on disk). -/
def unzipLoop (ctx : UnzipCtx) (fs : FS) : List ZipEntry → FS × List String × Option String
  | [] => (fs, [], none)
  | e :: rest =>
    match unzipStep ctx fs e with
    | .error msg => (fs, [], some msg)
    | .ok (fs2, out) =>
      let r := unzipLoop ctx fs2 rest
      (r.1, out ++ r.2.1, r.2.2)

/-- ziplib.go `Unzip`: resolve the output directory, open the archive
(`none` models an unreadable archive) and run the entry loop. -/
def Unzip (cwd : String) (archive : Option (List ZipEntry)) (opts : UnzipOptions)
    (fs : FS) : FS × List String × Option String :=
  match archive with
  | none => (fs, [], some "open archive")
  | some entries => unzipLoop (mkCtx cwd opts) fs entries

/-! ## The lister (ziplib.go `List`) -/

/-- The metadata record `List` builds for one entry. -/
def mkListEntry (f : ZipEntry) : ListEntry :=
  { name := f.name, uncompressedSize := f.content.length,
    compressedSize := f.compressedSize, modified := f.modified, isDir := f.isDir }

/-- ziplib.go `List`: open the archive (`none` models an unreadable archive,
yielding an error and no partial list) and return one metadata record per
entry in archive order; nothing is written to any file system. -/
def listEntries (archive : Option (List ZipEntry)) : Except String (List ListEntry) :=
  match archive with
  | none => .error "open archive"
  | some fl => .ok (fl.map mkListEntry)

end Ziplib

namespace ZiplibChecks

open Ziplib

example : clean "a/b/../c" = "a/c" := by decide
example : clean "/../a" = "/a" := by decide
example : clean "../../a" = "../../a" := by decide
example : clean "/a/../../b" = "/b" := by decide
example : clean "a/" = "a" := by decide
example : clean "/" = "/" := by decide
example : clean "." = "." := by decide
example : clean "" = "." := by decide
example : clean "a//b/./c" = "a/b/c" := by decide
example : joinPath "/out" "../../etc/passwd" = "/etc/passwd" := by decide
example : joinPath "/etc" "../../etc/passwd" = "/etc/passwd" := by decide
example : joinPath "." "sub/x.txt" = "sub/x.txt" := by decide
example : basePath "dir/foo.txt" = "foo.txt" := by decide
example : basePath "../../etc/passwd" = "passwd" := by decide
example : basePath "sub/" = "sub" := by decide
example : basePath "" = "." := by decide
example : dirPath "/out/sub/x.txt" = "/out/sub" := by decide
example : dirPath "x.txt" = "." := by decide
example : absPath "/work" "a/b" = "/work/a/b" := by decide
example : absPath "/work" "/a/b" = "/a/b" := by decide
example : hasPrefix "/out/a" "/out/" = true := by decide
example : hasPrefix "/etc/passwd" "/out/" = false := by decide

/- The test vectors of ziplib/match_test.go. -/
example : matchesAny "foo.txt" [] = false := by decide
example : matchesAny "foo.txt" ["foo.txt"] = true := by
  simp [matchesAny, matchGlobStr, basePath, baseChars, matchGlob, scanChunk, scanChunkLoop,
    matchChunk, matchStarLoop, checkRest]
example : matchesAny "foo.txt" ["*.txt"] = true := by
  simp [matchesAny, matchGlobStr, basePath, baseChars, matchGlob, scanChunk, scanChunkLoop,
    matchChunk, matchStarLoop, checkRest]
example : matchesAny "foo.txt" ["*.go"] = false := by
  simp [matchesAny, matchGlobStr, basePath, baseChars, matchGlob, scanChunk, scanChunkLoop,
    matchChunk, matchStarLoop, checkRest]
example : matchesAny "foo.txt" ["*.txt", "*.go"] = true := by
  simp [matchesAny, matchGlobStr, basePath, baseChars, matchGlob, scanChunk, scanChunkLoop,
    matchChunk, matchStarLoop, checkRest]
example : matchesAny "foo.go" ["*.txt", "*.go"] = true := by
  simp [matchesAny, matchGlobStr, basePath, baseChars, matchGlob, scanChunk, scanChunkLoop,
    matchChunk, matchStarLoop, checkRest]
example : matchesAny "foo.rs" ["*.txt", "*.go"] = false := by
  simp [matchesAny, matchGlobStr, basePath, baseChars, matchGlob, scanChunk, scanChunkLoop,
    matchChunk, matchStarLoop, checkRest]
example : matchesAny "dir/foo.txt" ["*.txt"] = true := by
  simp [matchesAny, matchGlobStr, basePath, baseChars, matchGlob, scanChunk, scanChunkLoop,
    matchChunk, matchStarLoop, checkRest]
example : matchesAny "foo.txt" ["[invalid"] = false := by
  simp [matchesAny, matchGlobStr, basePath, baseChars, matchGlob, scanChunk, scanChunkLoop,
    matchChunk, matchStarLoop, checkRest, matchRanges, getEsc]
example : matchesAny "foo.txt" ["fo?.txt"] = true := by
  simp [matchesAny, matchGlobStr, basePath, baseChars, matchGlob, scanChunk, scanChunkLoop,
    matchChunk, matchStarLoop, checkRest]
/- Base-name matching: a directory-qualified pattern does not match. -/
example : matchesAny "a/b/foo.txt" ["b/*.txt"] = false := by
  simp [matchesAny, matchGlobStr, basePath, baseChars, matchGlob, scanChunk, scanChunkLoop,
    matchChunk, matchStarLoop, checkRest]

end ZiplibChecks

namespace Ziplib

/-! ## Path algebra

Facts about segments, `clean` and `joinPath` on well-formed paths, used to
settle the round-trip and path-traversal claims. -/

/-- A plain path segment: nonempty, not a dot segment, no separator. -/
def plainSeg (s : List Char) : Bool :=
  decide (s ≠ []) && decide (s ≠ ['.']) && decide (s ≠ ['.', '.']) && decide ('/' ∉ s)

/-- A simple relative path: every slash-separated segment is plain. -/
def simpleRel (p : String) : Bool :=
  (splitSegs p.data).all plainSeg

theorem splitSegsAux_cons_slash (cur X : List Char) :
    splitSegsAux cur ('/' :: X) = cur.reverse :: splitSegsAux [] X := rfl

theorem splitSegsAux_cons (cur : List Char) {c : Char} (X : List Char) (hc : c ≠ '/') :
    splitSegsAux cur (c :: X) = splitSegsAux (c :: cur) X := by
  simp [splitSegsAux, hc]

theorem joinSegs_cons_cons (s t : List Char) (rest : List (List Char)) :
    joinSegs (s :: t :: rest) = s ++ '/' :: joinSegs (t :: rest) := rfl

theorem splitSegsAux_ne_nil (cur cs : List Char) : splitSegsAux cur cs ≠ [] := by
  induction cs generalizing cur with
  | nil => simp [splitSegsAux]
  | cons c rest ih =>
    by_cases hc : c = '/'
    · subst hc
      rw [splitSegsAux_cons_slash]
      simp
    · rw [splitSegsAux_cons cur rest hc]
      exact ih _

theorem splitSegs_ne_nil (cs : List Char) : splitSegs cs ≠ [] :=
  splitSegsAux_ne_nil [] cs

theorem joinSegs_splitSegsAux (cs : List Char) : ∀ cur,
    joinSegs (splitSegsAux cur cs) = cur.reverse ++ cs := by
  induction cs with
  | nil => intro cur; simp [splitSegsAux, joinSegs]
  | cons c rest ih =>
    intro cur
    by_cases hc : c = '/'
    · subst hc
      rw [splitSegsAux_cons_slash]
      have hne := splitSegsAux_ne_nil [] rest
      match hsa : splitSegsAux [] rest with
      | [] => exact absurd hsa hne
      | x :: xs =>
        rw [joinSegs_cons_cons, ← hsa, ih []]
        simp
    · rw [splitSegsAux_cons cur rest hc, ih (c :: cur)]
      simp

theorem joinSegs_splitSegs (cs : List Char) : joinSegs (splitSegs cs) = cs := by
  simpa using joinSegs_splitSegsAux cs []

theorem splitSegsAux_append_slash (a : List Char) : ∀ (cur b : List Char),
    splitSegsAux cur (a ++ '/' :: b) = splitSegsAux cur a ++ splitSegs b := by
  induction a with
  | nil =>
    intro cur b
    rw [List.nil_append, splitSegsAux_cons_slash]
    rfl
  | cons c a' ih =>
    intro cur b
    by_cases hc : c = '/'
    · subst hc
      rw [List.cons_append, splitSegsAux_cons_slash, splitSegsAux_cons_slash, ih]
      simp
    · rw [List.cons_append, splitSegsAux_cons cur _ hc, splitSegsAux_cons cur _ hc]
      exact ih _ _

theorem splitSegs_append_slash (a b : List Char) :
    splitSegs (a ++ '/' :: b) = splitSegs a ++ splitSegs b :=
  splitSegsAux_append_slash a [] b

theorem splitSegs_cons_slash (cs : List Char) :
    splitSegs ('/' :: cs) = [] :: splitSegs cs := by
  simp [splitSegs, splitSegsAux]

theorem splitSegsAux_no_slash (cs : List Char) : ∀ cur, '/' ∉ cur →
    ∀ s ∈ splitSegsAux cur cs, '/' ∉ s := by
  induction cs with
  | nil =>
    intro cur hcur s hs
    rw [show splitSegsAux cur [] = [cur.reverse] from rfl, List.mem_singleton] at hs
    subst hs
    simpa using hcur
  | cons c rest ih =>
    intro cur hcur s hs
    by_cases hc : c = '/'
    · subst hc
      rw [splitSegsAux_cons_slash, List.mem_cons] at hs
      rcases hs with hs | hs
      · subst hs; simpa using hcur
      · exact ih [] (by simp) s hs
    · rw [splitSegsAux_cons cur rest hc] at hs
      refine ih (c :: cur) ?_ s hs
      simp only [List.mem_cons, not_or]
      exact ⟨fun h => hc h.symm, hcur⟩

theorem splitSegs_no_slash (cs : List Char) : ∀ s ∈ splitSegs cs, '/' ∉ s :=
  splitSegsAux_no_slash cs [] (by simp)

theorem splitSegsAux_no_slash_single (cs : List Char) (h : '/' ∉ cs) :
    ∀ cur, splitSegsAux cur cs = [cur.reverse ++ cs] := by
  induction cs with
  | nil => intro cur; simp [splitSegsAux]
  | cons c rest ih =>
    intro cur
    have hc : c ≠ '/' := fun hh => h (hh ▸ List.mem_cons_self c rest)
    have hrest : '/' ∉ rest := fun hh => h (List.mem_cons_of_mem c hh)
    rw [splitSegsAux_cons cur rest hc, ih hrest (c :: cur)]
    simp

theorem splitSegs_no_slash_single (cs : List Char) (h : '/' ∉ cs) :
    splitSegs cs = [cs] := by
  simpa using splitSegsAux_no_slash_single cs h []

theorem splitSegs_joinSegs (L : List (List Char)) (hs : ∀ s ∈ L, '/' ∉ s)
    (hne : L ≠ []) : splitSegs (joinSegs L) = L := by
  induction L with
  | nil => exact absurd rfl hne
  | cons s L' ih =>
    match L' with
    | [] =>
      rw [joinSegs]
      exact splitSegs_no_slash_single s (hs s (by simp))
    | t :: rest =>
      rw [joinSegs_cons_cons, splitSegs_append_slash]
      rw [splitSegs_no_slash_single s (hs s (by simp))]
      rw [ih (fun x hx => hs x (List.mem_cons_of_mem s hx)) (by simp)]
      rfl

theorem joinSegs_append (A B : List (List Char)) (hA : A ≠ []) (hB : B ≠ []) :
    joinSegs (A ++ B) = joinSegs A ++ '/' :: joinSegs B := by
  induction A with
  | nil => exact absurd rfl hA
  | cons s A' ih =>
    match A' with
    | [] =>
      match B, hB with
      | t :: rest, _ =>
        rw [List.singleton_append, joinSegs_cons_cons, joinSegs]
    | u :: A2 =>
      have h2 := ih (by simp)
      simp only [List.cons_append] at h2 ⊢
      rw [joinSegs_cons_cons, h2, joinSegs_cons_cons]
      simp

theorem joinSegs_ne_nil (L : List (List Char)) (hL : ∀ s ∈ L, plainSeg s = true)
    (hne : L ≠ []) : joinSegs L ≠ [] := by
  match L with
  | [s] =>
    rw [joinSegs]
    have hp := hL s (by simp)
    simp only [plainSeg, Bool.and_eq_true, decide_eq_true_eq] at hp
    exact hp.1.1.1
  | s :: t :: rest =>
    rw [joinSegs_cons_cons]
    simp

theorem plainSeg_no_slash {s : List Char} (h : plainSeg s = true) : '/' ∉ s := by
  simp only [plainSeg, Bool.and_eq_true, decide_eq_true_eq] at h
  exact h.2

theorem plainSeg_parts {s : List Char} (h : plainSeg s = true) :
    s ≠ [] ∧ s ≠ ['.'] ∧ s ≠ ['.', '.'] ∧ '/' ∉ s := by
  simp only [plainSeg, Bool.and_eq_true, decide_eq_true_eq] at h
  exact ⟨h.1.1.1, h.1.1.2, h.1.2, h.2⟩

theorem cleanStep_plain {s : List Char} (h : plainSeg s = true) (rooted : Bool)
    (acc : List (List Char)) : cleanStep rooted acc s = s :: acc := by
  obtain ⟨h1, h2, h3, -⟩ := plainSeg_parts h
  simp [cleanStep, h1, h2, h3]

theorem cleanSegsLoop_plain (segs : List (List Char))
    (h : ∀ s ∈ segs, plainSeg s = true) (rooted : Bool) : ∀ acc,
    cleanSegsLoop rooted acc segs = segs.reverse ++ acc := by
  induction segs with
  | nil => intro acc; simp [cleanSegsLoop]
  | cons s rest ih =>
    intro acc
    simp only [cleanSegsLoop, List.foldl_cons] at ih ⊢
    rw [cleanStep_plain (h s (by simp))]
    rw [ih (fun x hx => h x (List.mem_cons_of_mem s hx))]
    simp

theorem cleanSegsLoop_append_split (rooted : Bool) (A B : List (List Char))
    (acc : List (List Char)) :
    cleanSegsLoop rooted acc (A ++ B) =
      cleanSegsLoop rooted (cleanSegsLoop rooted acc A) B := by
  simp [cleanSegsLoop, List.foldl_append]

theorem cleanStep_empty (rooted : Bool) (acc : List (List Char)) :
    cleanStep rooted acc [] = acc := by
  simp [cleanStep]

theorem cleanChars_rooted (cs : List Char) :
    cleanChars ('/' :: cs) =
      (if joinSegs ((cleanSegsLoop true [] (splitSegs ('/' :: cs))).reverse) = []
       then ['/']
       else '/' :: joinSegs ((cleanSegsLoop true [] (splitSegs ('/' :: cs))).reverse)) := by
  rw [cleanChars.eq_def]
  simp

/-- The key `clean` fact: a rooted path whose segments are all plain is
already clean. -/
theorem cleanChars_rooted_plain (L : List (List Char))
    (hL : ∀ s ∈ L, plainSeg s = true) (hne : L ≠ []) :
    cleanChars ('/' :: joinSegs L) = '/' :: joinSegs L := by
  have hns : ∀ s ∈ L, '/' ∉ s := fun s hs => plainSeg_no_slash (hL s hs)
  rw [cleanChars_rooted]
  rw [splitSegs_cons_slash, splitSegs_joinSegs L hns hne]
  have hstep : cleanSegsLoop true [] ([] :: L) = cleanSegsLoop true [] L := by
    simp [cleanSegsLoop, cleanStep_empty]
  rw [hstep, cleanSegsLoop_plain L hL true []]
  simp only [List.append_nil, List.reverse_reverse]
  rw [if_neg (joinSegs_ne_nil L hL hne)]

theorem simpleRel_plain {p : String} (h : simpleRel p = true) :
    ∀ s ∈ splitSegs p.data, plainSeg s = true := by
  simpa [simpleRel, List.all_eq_true] using h

theorem simpleRel_slash_append {a b : String} (ha : simpleRel a = true)
    (hb : simpleRel b = true) : simpleRel (a ++ "/" ++ b) = true := by
  have hd : (a ++ "/" ++ b).data = a.data ++ '/' :: b.data := by
    simp [String.data_append]
  simp only [simpleRel, List.all_eq_true, hd, splitSegs_append_slash]
  intro s hs
  rcases List.mem_append.mp hs with hs | hs
  · exact simpleRel_plain ha s hs
  · exact simpleRel_plain hb s hs

theorem clean_abs_simple {x : String} (hx : simpleRel x = true) :
    clean ("/" ++ x) = "/" ++ x := by
  apply String.ext
  show cleanChars ("/" ++ x).data = ("/" ++ x).data
  have hd : ("/" ++ x).data = '/' :: x.data := rfl
  rw [hd]
  conv_lhs => rw [← joinSegs_splitSegs x.data]
  rw [cleanChars_rooted_plain (splitSegs x.data) (simpleRel_plain hx) (splitSegs_ne_nil _)]
  rw [joinSegs_splitSegs]

theorem isAbs_slash_append (x : String) : isAbs ("/" ++ x) = true := by
  rw [isAbs]
  rfl

theorem absPath_abs (cwd : String) {s : String} (h : isAbs s = true) :
    absPath cwd s = clean s := by
  simp [absPath, h]

theorem slash_append_ne_empty (x : String) : ("/" ++ x) ≠ "" := by
  intro h
  have := congrArg String.data h
  simp [String.data_append] at this

theorem joinPath_abs_simple {rd q : String} (hrd : simpleRel rd = true)
    (hq : simpleRel q = true) :
    joinPath ("/" ++ rd) q = "/" ++ rd ++ "/" ++ q := by
  rw [joinPath, if_neg (slash_append_ne_empty rd)]
  have hsimp : simpleRel (rd ++ "/" ++ q) = true := simpleRel_slash_append hrd hq
  have hd : ("/" ++ rd ++ "/" ++ q) = "/" ++ (rd ++ "/" ++ q) := by
    apply String.ext
    simp [String.data_append]
  rw [hd, clean_abs_simple hsimp, ← hd]

theorem clean_abs_join {rd q : String} (hrd : simpleRel rd = true)
    (hq : simpleRel q = true) :
    clean ("/" ++ rd ++ "/" ++ q) = "/" ++ rd ++ "/" ++ q := by
  have hd : ("/" ++ rd ++ "/" ++ q) = "/" ++ (rd ++ "/" ++ q) := by
    apply String.ext
    simp [String.data_append]
  rw [hd, clean_abs_simple (simpleRel_slash_append hrd hq)]

theorem hasPrefix_slash_join (rd q : String) :
    hasPrefix ("/" ++ rd ++ "/" ++ q) ("/" ++ rd ++ "/") = true := by
  rw [hasPrefix, decide_eq_true_eq]
  refine ⟨q.data, ?_⟩
  simp [String.data_append]

theorem append_right_injective (a : String) {b c : String} (h : a ++ b = a ++ c) :
    b = c := by
  have hd := congrArg String.data h
  simp only [String.data_append] at hd
  exact String.ext (List.append_cancel_left hd)

/-! ## Step and loop facts about the extractor -/

theorem stepSkips_empty {opts : UnzipOptions} (h : opts.filePatterns = [])
    (e : ZipEntry) : stepSkips opts e = false := by
  simp [stepSkips, h]

theorem stepSkips_iff (opts : UnzipOptions) (e : ZipEntry) :
    stepSkips opts e = true ↔
      opts.filePatterns ≠ [] ∧ matchesAny e.name opts.filePatterns = false := by
  rw [stepSkips]
  simp [List.length_pos]

theorem unzipStep_skip {ctx : UnzipCtx} {e : ZipEntry} (fs : FS)
    (h : stepSkips ctx.opts e = true) : unzipStep ctx fs e = .ok (fs, []) := by
  simp [unzipStep, h]

theorem unzipStep_guard_fail {ctx : UnzipCtx} {e : ZipEntry} (fs : FS)
    (hskip : stepSkips ctx.opts e = false) (hguard : destOk ctx e = false) :
    unzipStep ctx fs e = .error ("illegal file path: " ++ e.name) := by
  simp [unzipStep, hskip, hguard]

theorem unzipStep_dir {ctx : UnzipCtx} {e : ZipEntry} (fs : FS)
    (hskip : stepSkips ctx.opts e = false) (hguard : destOk ctx e = true)
    (hdir : e.isDir = true) :
    unzipStep ctx fs e = .ok (mkdirAll fs (destPathOf ctx e) e.mode, []) := by
  simp [unzipStep, hskip, hguard, hdir]

theorem unzipStep_collision {ctx : UnzipCtx} {e : ZipEntry} (fs : FS)
    (hskip : stepSkips ctx.opts e = false) (hguard : destOk ctx e = true)
    (hdir : e.isDir = false) (hov : ctx.opts.overwrite = false)
    (hex : statExists fs (destPathOf ctx e) = true) :
    unzipStep ctx fs e =
      .error ("file exists: " ++ destPathOf ctx e ++ " (use overwrite option)") := by
  simp [unzipStep, hskip, hguard, hdir, extractFile, hov, hex]

/-- The file system produced by a successful `extractFile` plus the final
`os.Chtimes`, written out explicitly. -/
def extractResult (ctx : UnzipCtx) (fs : FS) (e : ZipEntry) : FS :=
  chtimesFS
    (writeFileFS (mkdirAll fs (dirPath (destPathOf ctx e)) 0o755)
      (destPathOf ctx e) e.content e.mode)
    (destPathOf ctx e) e.modified

theorem unzipStep_extract {ctx : UnzipCtx} {e : ZipEntry} (fs : FS)
    (hskip : stepSkips ctx.opts e = false) (hguard : destOk ctx e = true)
    (hdir : e.isDir = false)
    (hcol : ctx.opts.overwrite = true ∨ statExists fs (destPathOf ctx e) = false) :
    unzipStep ctx fs e =
      .ok (extractResult ctx fs e, ["  inflating: " ++ destPathOf ctx e]) := by
  have hguardck : (!ctx.opts.overwrite && statExists fs (destPathOf ctx e)) = false := by
    rcases hcol with h | h <;> simp [h]
  simp [unzipStep, hskip, hguard, hdir, extractFile, hguardck, extractResult]

theorem unzipStep_ok_destOk {ctx : UnzipCtx} {e : ZipEntry} {fs fs2 : FS}
    {out : List String} (hskip : stepSkips ctx.opts e = false)
    (h : unzipStep ctx fs e = .ok (fs2, out)) : destOk ctx e = true := by
  by_cases hg : destOk ctx e = true
  · exact hg
  · rw [unzipStep_guard_fail fs hskip (by simpa using hg)] at h
    cases h

theorem mkdirAll_files (fs : FS) (p : String) (m : Nat) :
    (mkdirAll fs p m).files = fs.files := rfl

theorem writeFileFS_files_self (fs : FS) (p c : String) (m : Nat) :
    (writeFileFS fs p c m).files p =
      some (match fs.files p with
        | some old => { old with content := c }
        | none => { content := c, mode := m, mtime := 0 }) := by
  simp only [writeFileFS, if_pos rfl]
  cases fs.files p <;> rfl

theorem writeFileFS_files_other (fs : FS) (p c : String) (m : Nat) {k : String}
    (h : k ≠ p) : (writeFileFS fs p c m).files k = fs.files k := by
  simp [writeFileFS, h]

theorem chtimesFS_files_self (fs : FS) (p : String) (t : Int) :
    (chtimesFS fs p t).files p = (fs.files p).map fun df => { df with mtime := t } := by
  simp [chtimesFS]

theorem chtimesFS_files_other (fs : FS) (p : String) (t : Int) {k : String}
    (h : k ≠ p) : (chtimesFS fs p t).files k = fs.files k := by
  simp [chtimesFS, h]

theorem chtimesFS_dirs (fs : FS) (p : String) (t : Int) :
    (chtimesFS fs p t).dirs = fs.dirs := rfl

theorem writeFileFS_dirs (fs : FS) (p c : String) (m : Nat) :
    (writeFileFS fs p c m).dirs = fs.dirs := rfl

theorem extractResult_content (ctx : UnzipCtx) (fs : FS) (e : ZipEntry) :
    ∃ df, (extractResult ctx fs e).files (destPathOf ctx e) = some df ∧
      df.content = e.content ∧ df.mtime = e.modified := by
  rw [extractResult, chtimesFS_files_self]
  rw [show (writeFileFS (mkdirAll fs (dirPath (destPathOf ctx e)) 0o755)
      (destPathOf ctx e) e.content e.mode).files (destPathOf ctx e) =
    some (match (mkdirAll fs (dirPath (destPathOf ctx e)) 0o755).files (destPathOf ctx e) with
      | some old => { old with content := e.content }
      | none => { content := e.content, mode := e.mode, mtime := 0 }) from
    writeFileFS_files_self _ _ _ _]
  rw [mkdirAll_files]
  cases fs.files (destPathOf ctx e) <;> simp

theorem extractResult_fresh_file (ctx : UnzipCtx) (fs : FS) (e : ZipEntry)
    (hnone : fs.files (destPathOf ctx e) = none) :
    (extractResult ctx fs e).files (destPathOf ctx e) =
      some { content := e.content, mode := e.mode, mtime := e.modified } := by
  rw [extractResult, chtimesFS_files_self]
  rw [show (writeFileFS (mkdirAll fs (dirPath (destPathOf ctx e)) 0o755)
      (destPathOf ctx e) e.content e.mode).files (destPathOf ctx e) =
    some (match (mkdirAll fs (dirPath (destPathOf ctx e)) 0o755).files (destPathOf ctx e) with
      | some old => { old with content := e.content }
      | none => { content := e.content, mode := e.mode, mtime := 0 }) from
    writeFileFS_files_self _ _ _ _]
  rw [mkdirAll_files]
  rw [hnone]
  rfl

theorem extractResult_files_other (ctx : UnzipCtx) (fs : FS) (e : ZipEntry)
    {k : String} (h : k ≠ destPathOf ctx e) :
    (extractResult ctx fs e).files k = fs.files k := by
  rw [extractResult, chtimesFS_files_other _ _ _ h, writeFileFS_files_other _ _ _ _ h,
    mkdirAll_files]

theorem extractResult_dirs_missing (ctx : UnzipCtx) (fs : FS) (e : ZipEntry)
    {d : String} (hmem : d ∈ pathPrefixes (dirPath (destPathOf ctx e)))
    (hnone : fs.dirs d = none) :
    (extractResult ctx fs e).dirs d = some 0o755 := by
  rw [extractResult, chtimesFS_dirs, writeFileFS_dirs]
  simp [mkdirAll, hmem, hnone]

theorem unzipStep_files_other {ctx : UnzipCtx} {e : ZipEntry} {fs fs2 : FS}
    {out : List String} (h : unzipStep ctx fs e = .ok (fs2, out)) {k : String}
    (hk : k ≠ destPathOf ctx e) : fs2.files k = fs.files k := by
  rw [unzipStep] at h
  split at h
  · cases h; rfl
  · split at h
    · cases h
    · split at h
      · cases h
        rw [mkdirAll_files]
      · split at h
        · cases h
        · rename_i fsout heq
          rw [extractFile] at heq
          split at heq
          · cases heq
          · cases heq
            cases h
            rw [chtimesFS_files_other _ _ _ hk, writeFileFS_files_other _ _ _ _ hk,
              mkdirAll_files]

theorem statExists_mkdirAll {fs : FS} {k : String} (h : statExists fs k = true)
    (p : String) (m : Nat) : statExists (mkdirAll fs p m) k = true := by
  rw [statExists] at h ⊢
  rw [mkdirAll]
  simp only [Bool.or_eq_true, Option.isSome_iff_exists] at h ⊢
  rcases h with h | h
  · exact Or.inl h
  · right
    obtain ⟨v, hv⟩ := h
    by_cases hc : k ∈ pathPrefixes p ∧ fs.dirs k = none
    · rw [hc.2] at hv; cases hv
    · simp only [if_neg hc]
      exact ⟨v, hv⟩

theorem statExists_writeFileFS {fs : FS} {k : String} (h : statExists fs k = true)
    (p c : String) (m : Nat) : statExists (writeFileFS fs p c m) k = true := by
  rw [statExists] at h ⊢
  rw [writeFileFS]
  simp only [Bool.or_eq_true, Option.isSome_iff_exists] at h ⊢
  rcases h with h | h
  · left
    by_cases hk : k = p
    · subst hk
      simp only [if_pos rfl]
      obtain ⟨v, hv⟩ := h
      rw [hv]
      exact ⟨{ v with content := c }, rfl⟩
    · simp only [if_neg hk]
      exact h
  · exact Or.inr h

theorem statExists_chtimesFS {fs : FS} {k : String} (h : statExists fs k = true)
    (p : String) (t : Int) : statExists (chtimesFS fs p t) k = true := by
  rw [statExists] at h ⊢
  rw [chtimesFS]
  simp only [Bool.or_eq_true, Option.isSome_iff_exists] at h ⊢
  rcases h with h | h
  · left
    by_cases hk : k = p
    · subst hk
      simp only [if_pos rfl]
      obtain ⟨v, hv⟩ := h
      rw [hv]
      exact ⟨{ v with mtime := t }, rfl⟩
    · simp only [if_neg hk]
      exact h
  · exact Or.inr h

theorem unzipStep_stat_mono {ctx : UnzipCtx} {e : ZipEntry} {fs fs2 : FS}
    {out : List String} (h : unzipStep ctx fs e = .ok (fs2, out)) {k : String}
    (hk : statExists fs k = true) : statExists fs2 k = true := by
  rw [unzipStep] at h
  split at h
  · cases h; exact hk
  · split at h
    · cases h
    · split at h
      · cases h
        exact statExists_mkdirAll hk (destPathOf ctx e) e.mode
      · split at h
        · cases h
        · rename_i fsout heq
          rw [extractFile] at heq
          split at heq
          · cases heq
          · cases heq
            cases h
            exact statExists_chtimesFS
              (statExists_writeFileFS
                (statExists_mkdirAll hk (dirPath (destPathOf ctx e)) 0o755)
                (destPathOf ctx e) e.content e.mode)
              (destPathOf ctx e) e.modified

theorem unzipStep_ok_file_exists {ctx : UnzipCtx} {e : ZipEntry} {fs fs2 : FS}
    {out : List String} (hskip : stepSkips ctx.opts e = false)
    (hdir : e.isDir = false) (h : unzipStep ctx fs e = .ok (fs2, out)) :
    statExists fs2 (destPathOf ctx e) = true := by
  rw [unzipStep] at h
  rw [hskip] at h
  simp only [Bool.false_eq_true, if_false] at h
  split at h
  · cases h
  · rw [hdir] at h
    simp only [Bool.false_eq_true, if_false] at h
    split at h
    · cases h
    · rename_i fsout heq
      rw [extractFile] at heq
      split at heq
      · cases heq
      · cases heq
        cases h
        rw [statExists]
        rw [show (chtimesFS (writeFileFS (mkdirAll fs (dirPath (destPathOf ctx e)) 0o755)
            (destPathOf ctx e) e.content e.mode) (destPathOf ctx e) e.modified).files
            (destPathOf ctx e) =
          ((writeFileFS (mkdirAll fs (dirPath (destPathOf ctx e)) 0o755)
            (destPathOf ctx e) e.content e.mode).files (destPathOf ctx e)).map
            (fun df => { df with mtime := e.modified }) from chtimesFS_files_self _ _ _]
        rw [writeFileFS_files_self]
        cases (mkdirAll fs (dirPath (destPathOf ctx e)) 0o755).files (destPathOf ctx e) <;> simp

theorem unzipLoop_nil (ctx : UnzipCtx) (fs : FS) :
    unzipLoop ctx fs [] = (fs, [], none) := rfl

theorem unzipLoop_cons_ok {ctx : UnzipCtx} {fs fs2 : FS} {e : ZipEntry}
    {out : List String} (h : unzipStep ctx fs e = .ok (fs2, out))
    (rest : List ZipEntry) :
    unzipLoop ctx fs (e :: rest) =
      ((unzipLoop ctx fs2 rest).1, out ++ (unzipLoop ctx fs2 rest).2.1,
        (unzipLoop ctx fs2 rest).2.2) := by
  simp [unzipLoop, h]

theorem unzipLoop_cons_err {ctx : UnzipCtx} {fs : FS} {e : ZipEntry}
    {msg : String} (h : unzipStep ctx fs e = .error msg) (rest : List ZipEntry) :
    unzipLoop ctx fs (e :: rest) = (fs, [], some msg) := by
  simp [unzipLoop, h]

theorem unzipLoop_append_ok {ctx : UnzipCtx} {fs fs1 : FS} {xs : List ZipEntry}
    {out1 : List String} (h : unzipLoop ctx fs xs = (fs1, out1, none))
    (ys : List ZipEntry) :
    unzipLoop ctx fs (xs ++ ys) =
      ((unzipLoop ctx fs1 ys).1, out1 ++ (unzipLoop ctx fs1 ys).2.1,
        (unzipLoop ctx fs1 ys).2.2) := by
  induction xs generalizing fs out1 with
  | nil =>
    rw [unzipLoop_nil] at h
    cases h
    simp
  | cons e rest ih =>
    rw [unzipLoop] at h
    rw [List.cons_append, unzipLoop]
    cases hstep : unzipStep ctx fs e with
    | error msg =>
      rw [hstep] at h
      simp at h
    | ok p =>
      obtain ⟨fs2, out⟩ := p
      rw [hstep] at h
      simp only [Prod.mk.injEq] at h
      obtain ⟨h1, h2, h3⟩ := h
      have h' : unzipLoop ctx fs2 rest = (fs1, (unzipLoop ctx fs2 rest).2.1, none) := by
        conv_lhs => rw [show unzipLoop ctx fs2 rest =
          ((unzipLoop ctx fs2 rest).1, (unzipLoop ctx fs2 rest).2.1,
            (unzipLoop ctx fs2 rest).2.2) from rfl]
        rw [h1, h3]
      dsimp only
      rw [ih h']
      simp only [Prod.mk.injEq, true_and]
      rw [← h2, List.append_assoc]
      simp

theorem unzipLoop_append_err {ctx : UnzipCtx} {fs fs1 : FS} {xs : List ZipEntry}
    {out1 : List String} {msg : String}
    (h : unzipLoop ctx fs xs = (fs1, out1, some msg)) (ys : List ZipEntry) :
    unzipLoop ctx fs (xs ++ ys) = (fs1, out1, some msg) := by
  induction xs generalizing fs out1 with
  | nil =>
    rw [unzipLoop_nil] at h
    cases h
  | cons e rest ih =>
    rw [unzipLoop] at h
    rw [List.cons_append, unzipLoop]
    cases hstep : unzipStep ctx fs e with
    | error m2 =>
      rw [hstep] at h
      cases h
      rfl
    | ok p =>
      obtain ⟨fs2, out⟩ := p
      rw [hstep] at h
      simp only [Prod.mk.injEq] at h
      obtain ⟨h1, h2, h3⟩ := h
      have h' : unzipLoop ctx fs2 rest = (fs1, (unzipLoop ctx fs2 rest).2.1, some msg) := by
        conv_lhs => rw [show unzipLoop ctx fs2 rest =
          ((unzipLoop ctx fs2 rest).1, (unzipLoop ctx fs2 rest).2.1,
            (unzipLoop ctx fs2 rest).2.2) from rfl]
        rw [h1, h3]
      dsimp only
      rw [ih h']
      simp only [Prod.mk.injEq, true_and]
      exact ⟨h2, trivial⟩

theorem unzipLoop_files_other {ctx : UnzipCtx} (es : List ZipEntry) {k : String}
    (hk : ∀ e ∈ es, destPathOf ctx e ≠ k) (fs : FS) :
    (unzipLoop ctx fs es).1.files k = fs.files k := by
  induction es generalizing fs with
  | nil => rfl
  | cons e rest ih =>
    rw [unzipLoop]
    cases hstep : unzipStep ctx fs e with
    | error msg => rfl
    | ok p =>
      obtain ⟨fs2, out⟩ := p
      simp only
      rw [ih (fun x hx => hk x (List.mem_cons_of_mem e hx)) fs2]
      exact unzipStep_files_other hstep (fun hh => hk e (by simp) hh.symm)

theorem unzipLoop_stat_mono {ctx : UnzipCtx} (es : List ZipEntry) {k : String}
    {fs : FS} (h : statExists fs k = true) :
    statExists (unzipLoop ctx fs es).1 k = true := by
  induction es generalizing fs with
  | nil => exact h
  | cons e rest ih =>
    rw [unzipLoop]
    cases hstep : unzipStep ctx fs e with
    | error msg => exact h
    | ok p =>
      obtain ⟨fs2, out⟩ := p
      exact ih (unzipStep_stat_mono hstep h)

theorem unzipLoop_ok_destOk {ctx : UnzipCtx} {es : List ZipEntry} {fs fs1 : FS}
    {out1 : List String} (h : unzipLoop ctx fs es = (fs1, out1, none)) :
    ∀ e ∈ es, stepSkips ctx.opts e = false → destOk ctx e = true := by
  induction es generalizing fs out1 with
  | nil => intro e he; cases he
  | cons e2 rest ih =>
    intro e he hskip
    rw [unzipLoop] at h
    cases hstep : unzipStep ctx fs e2 with
    | error msg =>
      rw [hstep] at h
      cases h
    | ok p =>
      obtain ⟨fs2, out⟩ := p
      rw [hstep] at h
      simp only [Prod.mk.injEq] at h
      obtain ⟨h1, h2, h3⟩ := h
      rcases List.mem_cons.mp he with he | he
      · subst he
        exact unzipStep_ok_destOk hskip hstep
      · have h' : unzipLoop ctx fs2 rest = (fs1, (unzipLoop ctx fs2 rest).2.1, none) := by
          conv_lhs => rw [show unzipLoop ctx fs2 rest =
            ((unzipLoop ctx fs2 rest).1, (unzipLoop ctx fs2 rest).2.1,
              (unzipLoop ctx fs2 rest).2.2) from rfl]
          rw [h1, h3]
        exact ih h' e he hskip

/-! ## Resolution of the `../../etc/passwd` entry

`joinPath root "../../etc/passwd"` resolves, for a simple absolute root, to
the path whose segments are the root segments with the last two removed
followed by `etc` and `passwd`; the zip-slip guard then rejects the entry
exactly when the root segments are not a prefix of that segment list. -/

/-- The segments of `Join(root, "../../etc/passwd")` for a root with the
given segments. -/
def passwdResolvedSegs (S : List (List Char)) : List (List Char) :=
  S.dropLast.dropLast ++ [['e', 't', 'c'], ['p', 'a', 's', 's', 'w', 'd']]

theorem reverse_tail_eq_dropLast_reverse (l : List (List Char)) :
    l.reverse.tail = l.dropLast.reverse := by
  induction l using List.reverseRecOn with
  | nil => rfl
  | append_singleton xs x ih =>
    rw [List.reverse_append]
    simp

theorem cleanStep_dotdot_plain {acc : List (List Char)}
    (hacc : ∀ s ∈ acc, plainSeg s = true) :
    cleanStep true acc ['.', '.'] = acc.tail := by
  match acc, hacc with
  | [], _ => simp [cleanStep]
  | a :: as, hacc =>
    have hne := (plainSeg_parts (hacc a (by simp))).2.2.1
    simp [cleanStep, hne]

theorem plain_tail {acc : List (List Char)} (h : ∀ s ∈ acc, plainSeg s = true) :
    ∀ s ∈ acc.tail, plainSeg s = true := by
  intro s hs
  exact h s (List.mem_of_mem_tail hs)

theorem plain_reverse {acc : List (List Char)} (h : ∀ s ∈ acc, plainSeg s = true) :
    ∀ s ∈ acc.reverse, plainSeg s = true := by
  intro s hs
  exact h s (List.mem_reverse.mp hs)

theorem plain_dropLast {acc : List (List Char)} (h : ∀ s ∈ acc, plainSeg s = true) :
    ∀ s ∈ acc.dropLast, plainSeg s = true := by
  intro s hs
  exact h s (List.dropLast_sublist acc |>.mem hs)

theorem passwdResolvedSegs_plain {S : List (List Char)}
    (hS : ∀ s ∈ S, plainSeg s = true) :
    ∀ s ∈ passwdResolvedSegs S, plainSeg s = true := by
  intro s hs
  rw [passwdResolvedSegs] at hs
  rcases List.mem_append.mp hs with hs | hs
  · exact plain_dropLast (plain_dropLast hS) s hs
  · rcases List.mem_cons.mp hs with hs | hs
    · subst hs; decide
    · rw [List.mem_singleton] at hs
      subst hs; decide

theorem passwdResolvedSegs_ne_nil (S : List (List Char)) :
    passwdResolvedSegs S ≠ [] := by
  rw [passwdResolvedSegs]
  simp

/-- Resolving `Join(root, "../../etc/passwd")` for a simple absolute root. -/
theorem cleanChars_passwd {S : List (List Char)} (hS : ∀ s ∈ S, plainSeg s = true)
    (hne : S ≠ []) :
    cleanChars ('/' :: (joinSegs S ++ '/' :: "../../etc/passwd".data)) =
      '/' :: joinSegs (passwdResolvedSegs S) := by
  rw [cleanChars_rooted, splitSegs_cons_slash, splitSegs_append_slash]
  rw [splitSegs_joinSegs S (fun s hs => plainSeg_no_slash (hS s hs)) hne]
  rw [show splitSegs "../../etc/passwd".data =
    [['.', '.'], ['.', '.'], ['e', 't', 'c'], ['p', 'a', 's', 's', 'w', 'd']] from by decide]
  have hstep0 : cleanSegsLoop true []
      ([] :: (S ++ [['.', '.'], ['.', '.'], ['e', 't', 'c'], ['p', 'a', 's', 's', 'w', 'd']])) =
      cleanSegsLoop true []
        (S ++ [['.', '.'], ['.', '.'], ['e', 't', 'c'], ['p', 'a', 's', 's', 'w', 'd']]) := by
    simp [cleanSegsLoop, cleanStep_empty]
  rw [hstep0, cleanSegsLoop_append_split, cleanSegsLoop_plain S hS true []]
  simp only [List.append_nil]
  have hp1 : ∀ s ∈ S.reverse, plainSeg s = true := plain_reverse hS
  have hs1 : cleanSegsLoop true S.reverse
      [['.', '.'], ['.', '.'], ['e', 't', 'c'], ['p', 'a', 's', 's', 'w', 'd']] =
      cleanSegsLoop true S.reverse.tail
        [['.', '.'], ['e', 't', 'c'], ['p', 'a', 's', 's', 'w', 'd']] := by
    simp only [cleanSegsLoop, List.foldl_cons]
    rw [cleanStep_dotdot_plain hp1]
  have hp2 : ∀ s ∈ S.reverse.tail, plainSeg s = true := plain_tail hp1
  have hs2 : cleanSegsLoop true S.reverse.tail
      [['.', '.'], ['e', 't', 'c'], ['p', 'a', 's', 's', 'w', 'd']] =
      cleanSegsLoop true S.reverse.tail.tail
        [['e', 't', 'c'], ['p', 'a', 's', 's', 'w', 'd']] := by
    simp only [cleanSegsLoop, List.foldl_cons]
    rw [cleanStep_dotdot_plain hp2]
  rw [hs1, hs2, cleanSegsLoop_plain _ (by decide) true]
  have hrev : (([['e', 't', 'c'], ['p', 'a', 's', 's', 'w', 'd']].reverse ++
      S.reverse.tail.tail)).reverse = passwdResolvedSegs S := by
    rw [List.reverse_append, List.reverse_reverse]
    rw [reverse_tail_eq_dropLast_reverse, reverse_tail_eq_dropLast_reverse]
    rw [List.reverse_reverse, passwdResolvedSegs]
  rw [hrev]
  rw [if_neg (joinSegs_ne_nil _ (passwdResolvedSegs_plain hS) (passwdResolvedSegs_ne_nil S))]

/-! ## Prefix comparison of joined segment lists -/

theorem prefix_slash_chunk {a b u v : List Char} (ha : '/' ∉ a) (hb : '/' ∉ b)
    (h : (a ++ '/' :: u) <+: (b ++ '/' :: v)) : a = b ∧ u <+: v := by
  induction a generalizing b with
  | nil =>
    match b with
    | [] =>
      simp only [List.nil_append] at h
      exact ⟨rfl, (List.cons_prefix_cons.mp h).2⟩
    | c :: b2 =>
      simp only [List.nil_append, List.cons_append] at h
      obtain ⟨hc, -⟩ := List.cons_prefix_cons.mp h
      exact absurd (hc ▸ List.mem_cons_self c b2) hb
  | cons c a2 ih =>
    match b with
    | [] =>
      simp only [List.cons_append, List.nil_append] at h
      obtain ⟨hc, -⟩ := List.cons_prefix_cons.mp h
      exact absurd (hc ▸ List.mem_cons_self c a2) ha
    | d :: b2 =>
      simp only [List.cons_append] at h
      obtain ⟨hc, hrest⟩ := List.cons_prefix_cons.mp h
      have ha2 : '/' ∉ a2 := fun hh => ha (List.mem_cons_of_mem c hh)
      have hb2 : '/' ∉ b2 := fun hh => hb (List.mem_cons_of_mem d hh)
      obtain ⟨heq, hpre⟩ := ih ha2 hb2 hrest
      exact ⟨by rw [hc, heq], hpre⟩

theorem joined_prefix_segs (A : List (List Char)) :
    ∀ (B : List (List Char)), (∀ s ∈ A, plainSeg s = true) →
    (∀ s ∈ B, plainSeg s = true) →
    (joinSegs A ++ ['/']) <+: joinSegs B → A <+: B := by
  induction A with
  | nil => intro B _ _ _; exact List.nil_prefix
  | cons a A2 ih =>
    intro B hA hB h
    match B with
    | [] =>
      rw [joinSegs] at h
      have := List.eq_nil_of_prefix_nil h
      simp at this
    | [b] =>
      rw [joinSegs] at h
      exfalso
      refine plainSeg_no_slash (hB b (by simp)) (h.subset ?_)
      match A2 with
      | [] =>
        rw [joinSegs]
        simp
      | a2 :: A3 =>
        rw [joinSegs_cons_cons]
        simp
    | b :: b2 :: B3 =>
      rw [joinSegs_cons_cons] at h
      have hano : '/' ∉ a := plainSeg_no_slash (hA a (by simp))
      have hbno : '/' ∉ b := plainSeg_no_slash (hB b (by simp))
      match A2 with
      | [] =>
        rw [joinSegs] at h
        have h2 : (a ++ '/' :: []) <+: (b ++ '/' :: joinSegs (b2 :: B3)) := by
          simpa using h
        obtain ⟨heq, -⟩ := prefix_slash_chunk hano hbno h2
        exact List.cons_prefix_cons.mpr ⟨heq, List.nil_prefix⟩
      | a2 :: A3 =>
        rw [joinSegs_cons_cons] at h
        have h2 : (a ++ '/' :: (joinSegs (a2 :: A3) ++ ['/'])) <+:
            (b ++ '/' :: joinSegs (b2 :: B3)) := by
          simpa using h
        obtain ⟨heq, hpre⟩ := prefix_slash_chunk hano hbno h2
        have hA2 : ∀ s ∈ a2 :: A3, plainSeg s = true :=
          fun s hs => hA s (List.mem_cons_of_mem a hs)
        have hB2 : ∀ s ∈ b2 :: B3, plainSeg s = true :=
          fun s hs => hB s (List.mem_cons_of_mem b hs)
        exact List.cons_prefix_cons.mpr ⟨heq, ih _ hA2 hB2 hpre⟩

theorem mkCtx_opts (cwd : String) (opts : UnzipOptions) :
    (mkCtx cwd opts).opts = opts := rfl

theorem mkCtx_cwd (cwd : String) (opts : UnzipOptions) :
    (mkCtx cwd opts).cwd = cwd := rfl

theorem mkCtx_outputDir {cwd : String} {opts : UnzipOptions}
    (h : opts.outputDir ≠ "") : (mkCtx cwd opts).outputDir = opts.outputDir := by
  simp [mkCtx, h]

theorem mkCtx_absOutputDir {cwd : String} {opts : UnzipOptions}
    (h : opts.outputDir ≠ "") :
    (mkCtx cwd opts).absOutputDir = absPath cwd opts.outputDir := by
  simp [mkCtx, h]

theorem isAbs_mk_slash (x : List Char) : isAbs ⟨'/' :: x⟩ = true := rfl

theorem destPathOf_passwd {rd cwd : String} {opts : UnzipOptions} {e : ZipEntry}
    (hrd : simpleRel rd = true) (hod : opts.outputDir = "/" ++ rd)
    (hj : opts.junkPaths = false) (hname : e.name = "../../etc/passwd") :
    destPathOf (mkCtx cwd opts) e =
      ⟨'/' :: joinSegs (passwdResolvedSegs (splitSegs rd.data))⟩ := by
  have hS := simpleRel_plain hrd
  have hodne : opts.outputDir ≠ "" := by
    rw [hod]; exact slash_append_ne_empty rd
  rw [destPathOf, mkCtx_opts, targetName, hj]
  simp only [Bool.false_eq_true, if_false]
  rw [hname, mkCtx_outputDir hodne, hod, joinPath,
    if_neg (slash_append_ne_empty rd)]
  apply String.ext
  show cleanChars ("/" ++ rd ++ "/" ++ "../../etc/passwd").data = _
  have hdata : ("/" ++ rd ++ "/" ++ "../../etc/passwd").data =
      '/' :: (joinSegs (splitSegs rd.data) ++ '/' :: "../../etc/passwd".data) := by
    rw [joinSegs_splitSegs]
    simp [String.data_append]
  rw [hdata, cleanChars_passwd hS (splitSegs_ne_nil _)]

theorem destOk_passwd_false {rd cwd : String} {opts : UnzipOptions} {e : ZipEntry}
    (hrd : simpleRel rd = true) (hod : opts.outputDir = "/" ++ rd)
    (hj : opts.junkPaths = false) (hname : e.name = "../../etc/passwd")
    (hside : ¬ (splitSegs rd.data <+: passwdResolvedSegs (splitSegs rd.data))) :
    destOk (mkCtx cwd opts) e = false := by
  have hS := simpleRel_plain hrd
  have hSp := passwdResolvedSegs_plain hS
  have hodne : opts.outputDir ≠ "" := by
    rw [hod]; exact slash_append_ne_empty rd
  have hdest := @destPathOf_passwd _ cwd _ _ hrd hod hj hname
  have habs : absPath cwd (destPathOf (mkCtx cwd opts) e) =
      ⟨'/' :: joinSegs (passwdResolvedSegs (splitSegs rd.data))⟩ := by
    rw [hdest, absPath_abs cwd (isAbs_mk_slash _)]
    apply String.ext
    show cleanChars ('/' :: joinSegs (passwdResolvedSegs (splitSegs rd.data))) = _
    rw [cleanChars_rooted_plain _ hSp (passwdResolvedSegs_ne_nil _)]
  have hroot : (mkCtx cwd opts).absOutputDir = "/" ++ rd := by
    rw [mkCtx_absOutputDir hodne, hod, absPath_abs cwd (isAbs_slash_append rd),
      clean_abs_simple hrd]
  rw [destOk]
  simp only [mkCtx_cwd, habs, hroot]
  have hpre : hasPrefix ⟨'/' :: joinSegs (passwdResolvedSegs (splitSegs rd.data))⟩
      ("/" ++ rd ++ "/") = false := by
    rw [hasPrefix, decide_eq_false_iff_not]
    intro hcontra
    have hd : ("/" ++ rd ++ "/").data =
        '/' :: (joinSegs (splitSegs rd.data) ++ ['/']) := by
      rw [joinSegs_splitSegs]
      simp [String.data_append]
    rw [hd] at hcontra
    have hcontra2 := (List.cons_prefix_cons.mp hcontra).2
    exact hside (joined_prefix_segs _ _ hS hSp hcontra2)
  have heqf : (⟨'/' :: joinSegs (passwdResolvedSegs (splitSegs rd.data))⟩ ==
      ("/" ++ rd : String)) = false := by
    rw [beq_eq_false_iff_ne]
    intro hcontra
    have hd := congrArg String.data hcontra
    simp only at hd
    have hd2 : joinSegs (passwdResolvedSegs (splitSegs rd.data)) =
        joinSegs (splitSegs rd.data) := by
      have hrddata : ("/" ++ rd).data = '/' :: joinSegs (splitSegs rd.data) := by
        rw [joinSegs_splitSegs]; rfl
      rw [hrddata] at hd
      exact List.cons.injEq .. ▸ hd |>.2
    have hS2 : splitSegs (joinSegs (passwdResolvedSegs (splitSegs rd.data))) =
        passwdResolvedSegs (splitSegs rd.data) :=
      splitSegs_joinSegs _ (fun s hs => plainSeg_no_slash (hSp s hs))
        (passwdResolvedSegs_ne_nil _)
    have hS3 : splitSegs (joinSegs (splitSegs rd.data)) = splitSegs rd.data :=
      splitSegs_joinSegs _ (fun s hs => plainSeg_no_slash (hS s hs))
        (splitSegs_ne_nil _)
    rw [hd2, hS3] at hS2
    exact hside (hS2 ▸ List.prefix_refl _)
  rw [hpre, heqf]
  rfl

/-! ## Round trip: archiving simple files and extracting them back -/

/-- One source file for the round-trip statement: its path, content, mode and
modification time on the source file system. -/
structure SrcSpec where
  path : String
  content : String
  mode : Nat
  mtime : Int

/-- The source file system containing exactly the given files. -/
def srcRootsOf (srcs : List SrcSpec) : List (String × FSNode) :=
  srcs.map fun s => (s.path, .file s.content s.mode s.mtime)

/-- The archive entry `Zip` writes for one source file. -/
def entryOf (opts : ZipOptions) (s : SrcSpec) : ZipEntry :=
  (writeFileToZip s.path s.content s.mode s.mtime opts).1

theorem entryOf_name (opts : ZipOptions) (s : SrcSpec) :
    (entryOf opts s).name = s.path := rfl

theorem entryOf_isDir (opts : ZipOptions) (s : SrcSpec) :
    (entryOf opts s).isDir = false := rfl

theorem entryOf_content (opts : ZipOptions) (s : SrcSpec) :
    (entryOf opts s).content = s.content := rfl

theorem lookup_srcRoots {srcs : List SrcSpec}
    (hnd : (srcs.map SrcSpec.path).Nodup) {s : SrcSpec} (hs : s ∈ srcs) :
    (srcRootsOf srcs).lookup s.path = some (.file s.content s.mode s.mtime) := by
  induction srcs with
  | nil => cases hs
  | cons t rest ih =>
    rw [List.map_cons, List.nodup_cons] at hnd
    rcases List.mem_cons.mp hs with hs | hs
    · subst hs
      simp [srcRootsOf, List.lookup]
    · have hne : s.path ≠ t.path := by
        intro hcontra
        exact hnd.1 (hcontra ▸ List.mem_map_of_mem SrcSpec.path hs)
      have hbeq : (s.path == t.path) = false := by
        simpa using hne
      rw [show srcRootsOf (t :: rest) =
        (t.path, FSNode.file t.content t.mode t.mtime) :: srcRootsOf rest from rfl]
      rw [List.lookup, hbeq]
      exact ih hnd.2 hs

theorem matchesAny_nil (name : String) : matchesAny name [] = false := rfl

theorem zipAll_files {srcs : List SrcSpec} {lvl : Int}
    (hnd : (srcs.map SrcSpec.path).Nodup) :
    ∀ (l : List SrcSpec), (∀ s ∈ l, s ∈ srcs) →
    zipAll (srcRootsOf srcs) ⟨true, lvl, []⟩ (l.map SrcSpec.path) =
      .ok (l.map (entryOf ⟨true, lvl, []⟩), l.map fun s => "  adding: " ++ s.path) := by
  intro l
  induction l with
  | nil => intro _; rfl
  | cons s rest ih =>
    intro hmem
    rw [List.map_cons, zipAll]
    have hadd : addToZip (srcRootsOf srcs) s.path ⟨true, lvl, []⟩ =
        .ok ([entryOf ⟨true, lvl, []⟩ s], ["  adding: " ++ s.path]) := by
      rw [addToZip, lookup_srcRoots hnd (hmem s (by simp))]
      rw [matchesAny_nil]
      rfl
    rw [hadd, ih (fun x hx => hmem x (List.mem_cons_of_mem s hx))]
    simp

/-- `destPathOf` for a simple entry extracted with `JunkPaths` off into a
simple absolute output root. -/
theorem destPathOf_simple {rd cwd : String} {opts : UnzipOptions} {e : ZipEntry}
    (hrd : simpleRel rd = true) (hod : opts.outputDir = "/" ++ rd)
    (hj : opts.junkPaths = false) (hq : simpleRel e.name = true) :
    destPathOf (mkCtx cwd opts) e = "/" ++ rd ++ "/" ++ e.name := by
  have hodne : opts.outputDir ≠ "" := by
    rw [hod]; exact slash_append_ne_empty rd
  rw [destPathOf, mkCtx_opts, targetName, hj]
  simp only [Bool.false_eq_true, if_false]
  rw [mkCtx_outputDir hodne, hod, joinPath_abs_simple hrd hq]

theorem isAbs_data_slash {s : String} {x : List Char} (h : s.data = '/' :: x) :
    isAbs s = true := by
  rw [isAbs.eq_def, h]
  rfl

/-- The zip-slip guard accepts a simple entry extracted with `JunkPaths` off
into a simple absolute output root. -/
theorem destOk_simple_true {rd cwd : String} {opts : UnzipOptions} {e : ZipEntry}
    (hrd : simpleRel rd = true) (hod : opts.outputDir = "/" ++ rd)
    (hj : opts.junkPaths = false) (hq : simpleRel e.name = true) :
    destOk (mkCtx cwd opts) e = true := by
  have hodne : opts.outputDir ≠ "" := by
    rw [hod]; exact slash_append_ne_empty rd
  have hdp := @destPathOf_simple _ cwd _ _ hrd hod hj hq
  have hdata : ("/" ++ rd ++ "/" ++ e.name).data =
      '/' :: (rd.data ++ '/' :: e.name.data) := by
    simp [String.data_append]
  have habs : absPath cwd (destPathOf (mkCtx cwd opts) e) =
      "/" ++ rd ++ "/" ++ e.name := by
    rw [hdp, absPath_abs cwd (isAbs_data_slash hdata), clean_abs_join hrd hq]
  rw [destOk]
  simp only [mkCtx_cwd, habs]
  rw [mkCtx_absOutputDir hodne, hod, absPath_abs cwd (isAbs_slash_append rd),
    clean_abs_simple hrd]
  rw [hasPrefix_slash_join rd e.name]
  rfl

theorem slash_join_inj (rd : String) {a b : String}
    (h : "/" ++ rd ++ "/" ++ a = "/" ++ rd ++ "/" ++ b) : a = b :=
  append_right_injective ("/" ++ rd ++ "/") h

/-- The extraction half of the round trip: extracting the entries written for
a list of simple, distinct source files succeeds and leaves every file
content under the output root. -/
theorem unzipLoop_roundtrip {rd cwd : String} {uopts : UnzipOptions} {lvl : Int}
    (hrd : simpleRel rd = true) (hod : uopts.outputDir = "/" ++ rd)
    (hj : uopts.junkPaths = false) (hpat : uopts.filePatterns = [])
    (hov : uopts.overwrite = true) :
    ∀ (ss : List SrcSpec) (fs : FS),
      (∀ s ∈ ss, simpleRel s.path = true) → (ss.map SrcSpec.path).Nodup →
      (unzipLoop (mkCtx cwd uopts) fs (ss.map (entryOf ⟨true, lvl, []⟩))).2.2 = none ∧
      ∀ s ∈ ss, ∃ df,
        (unzipLoop (mkCtx cwd uopts) fs (ss.map (entryOf ⟨true, lvl, []⟩))).1.files
          ("/" ++ rd ++ "/" ++ s.path) = some df ∧ df.content = s.content := by
  intro ss
  induction ss with
  | nil =>
    intro fs _ _
    exact ⟨rfl, by intro s hs; cases hs⟩
  | cons s rest ih =>
    intro fs hsim hnd
    rw [List.map_cons, List.nodup_cons] at hnd
    have hqs : simpleRel (entryOf ⟨true, lvl, []⟩ s).name = true := by
      rw [entryOf_name]; exact hsim s (by simp)
    have hskip : stepSkips (mkCtx cwd uopts).opts (entryOf ⟨true, lvl, []⟩ s) = false := by
      rw [mkCtx_opts]; exact stepSkips_empty hpat _
    have hok := @destOk_simple_true _ cwd _ _ hrd hod hj hqs
    have hovc : (mkCtx cwd uopts).opts.overwrite = true := by rw [mkCtx_opts]; exact hov
    have hstep := unzipStep_extract fs hskip hok (entryOf_isDir _ s) (Or.inl hovc)
    rw [List.map_cons, unzipLoop_cons_ok hstep]
    have hrsim : ∀ t ∈ rest, simpleRel t.path = true :=
      fun t ht => hsim t (List.mem_cons_of_mem s ht)
    obtain ⟨ihnone, ihw⟩ :=
      ih (extractResult (mkCtx cwd uopts) fs (entryOf ⟨true, lvl, []⟩ s)) hrsim hnd.2
    refine ⟨ihnone, ?_⟩
    intro t ht
    rcases List.mem_cons.mp ht with ht | ht
    · have hpath : t.path = s.path := by rw [ht]
      have hcont : t.content = s.content := by rw [ht]
      rw [hpath, hcont]
      have hdp := @destPathOf_simple _ cwd _ _ hrd hod hj hqs
      rw [entryOf_name] at hdp
      have hother : ∀ e2 ∈ rest.map (entryOf ⟨true, lvl, []⟩),
          destPathOf (mkCtx cwd uopts) e2 ≠ "/" ++ rd ++ "/" ++ s.path := by
        intro e2 he2
        obtain ⟨t2, ht2, he2eq⟩ := List.mem_map.mp he2
        subst he2eq
        have hq2 : simpleRel (entryOf ⟨true, lvl, []⟩ t2).name = true := by
          rw [entryOf_name]; exact hrsim t2 ht2
        rw [@destPathOf_simple _ cwd _ _ hrd hod hj hq2, entryOf_name]
        intro hcontra
        have := slash_join_inj rd hcontra
        exact hnd.1 (this ▸ List.mem_map_of_mem SrcSpec.path ht2)
      rw [show (unzipLoop (mkCtx cwd uopts)
          (extractResult (mkCtx cwd uopts) fs (entryOf ⟨true, lvl, []⟩ s))
          (rest.map (entryOf ⟨true, lvl, []⟩))).1.files ("/" ++ rd ++ "/" ++ s.path) =
        (extractResult (mkCtx cwd uopts) fs (entryOf ⟨true, lvl, []⟩ s)).files
          ("/" ++ rd ++ "/" ++ s.path) from
        unzipLoop_files_other _ hother _]
      rw [← hdp]
      obtain ⟨df, hdf, hc, -⟩ :=
        extractResult_content (mkCtx cwd uopts) fs (entryOf ⟨true, lvl, []⟩ s)
      exact ⟨df, hdf, by rw [hc]; rfl⟩
    · exact ihw t ht

/-! ## Double extraction -/

theorem unzipLoop_eta (ctx : UnzipCtx) (fs : FS) (es : List ZipEntry) :
    unzipLoop ctx fs es =
      ((unzipLoop ctx fs es).1, (unzipLoop ctx fs es).2.1,
        (unzipLoop ctx fs es).2.2) := rfl

theorem unzipLoop_split {ctx : UnzipCtx} {fs fs1 : FS} {xs ys : List ZipEntry}
    {out1 : List String} (h : unzipLoop ctx fs (xs ++ ys) = (fs1, out1, none)) :
    (unzipLoop ctx fs xs).2.2 = none ∧
      (unzipLoop ctx (unzipLoop ctx fs xs).1 ys).2.2 = none ∧
      (unzipLoop ctx (unzipLoop ctx fs xs).1 ys).1 = fs1 := by
  cases he : (unzipLoop ctx fs xs).2.2 with
  | some m =>
    have hx : unzipLoop ctx fs xs =
        ((unzipLoop ctx fs xs).1, (unzipLoop ctx fs xs).2.1, some m) := by
      rw [unzipLoop_eta, he]
    rw [unzipLoop_append_err hx ys] at h
    simp only [Prod.mk.injEq] at h
    cases h.2.2
  | none =>
    have hx : unzipLoop ctx fs xs =
        ((unzipLoop ctx fs xs).1, (unzipLoop ctx fs xs).2.1, none) := by
      rw [unzipLoop_eta, he]
    rw [unzipLoop_append_ok hx ys] at h
    simp only [Prod.mk.injEq] at h
    exact ⟨rfl, h.2.2, h.1⟩

theorem unzipLoop_ok_cons {ctx : UnzipCtx} {fs fs1 : FS} {e : ZipEntry}
    {rest : List ZipEntry} {out1 : List String}
    (h : unzipLoop ctx fs (e :: rest) = (fs1, out1, none)) :
    ∃ fs2 out, unzipStep ctx fs e = .ok (fs2, out) ∧
      (unzipLoop ctx fs2 rest).2.2 = none ∧ (unzipLoop ctx fs2 rest).1 = fs1 := by
  rw [unzipLoop] at h
  cases hstep : unzipStep ctx fs e with
  | error m =>
    rw [hstep] at h
    cases h
  | ok p =>
    obtain ⟨fs2, out⟩ := p
    rw [hstep] at h
    simp only [Prod.mk.injEq] at h
    exact ⟨fs2, out, rfl, h.2.2, h.1⟩

/-- A prefix consisting only of skipped entries and directory entries whose
destination passes the guard always extracts cleanly, from any state. -/
theorem unzipLoop_pre_ok {ctx : UnzipCtx} {pre : List ZipEntry}
    (hpre : ∀ e ∈ pre, stepSkips ctx.opts e = true ∨
      (e.isDir = true ∧ destOk ctx e = true)) :
    ∀ fs, (unzipLoop ctx fs pre).2.2 = none := by
  induction pre with
  | nil => intro fs; rfl
  | cons e rest ih =>
    intro fs
    have hrest : ∀ e2 ∈ rest, stepSkips ctx.opts e2 = true ∨
        (e2.isDir = true ∧ destOk ctx e2 = true) :=
      fun e2 he2 => hpre e2 (List.mem_cons_of_mem e he2)
    rcases hpre e (by simp) with hskip | ⟨hdir, hok⟩
    · rw [unzipLoop_cons_ok (unzipStep_skip fs hskip)]
      exact ih hrest _
    · by_cases hskip : stepSkips ctx.opts e = true
      · rw [unzipLoop_cons_ok (unzipStep_skip fs hskip)]
        exact ih hrest _
      · rw [unzipLoop_cons_ok (unzipStep_dir fs (by simpa using hskip) hok hdir)]
        exact ih hrest _

/-- Second extraction of the same archive with overwrite off: the first
processed file entry collides with the file left by the first run. -/
theorem second_run_collision {ctx : UnzipCtx} {fs0 fs1 : FS}
    {pre rest : List ZipEntry} {e : ZipEntry} {out1 : List String}
    (hov : ctx.opts.overwrite = false)
    (hrun1 : unzipLoop ctx fs0 (pre ++ e :: rest) = (fs1, out1, none))
    (hpre : ∀ e2 ∈ pre, stepSkips ctx.opts e2 = true ∨ e2.isDir = true)
    (hskip : stepSkips ctx.opts e = false) (hdir : e.isDir = false) :
    ∃ fs2 out2, unzipLoop ctx fs1 (pre ++ e :: rest) =
      (fs2, out2,
        some ("file exists: " ++ destPathOf ctx e ++ " (use overwrite option)")) := by
  obtain ⟨hpre1, hmid, hfs1⟩ := unzipLoop_split hrun1
  have hmide : unzipLoop ctx (unzipLoop ctx fs0 pre).1 (e :: rest) =
      ((unzipLoop ctx (unzipLoop ctx fs0 pre).1 (e :: rest)).1,
        (unzipLoop ctx (unzipLoop ctx fs0 pre).1 (e :: rest)).2.1, none) := by
    rw [unzipLoop_eta, hmid]
  obtain ⟨fsB, outB, hstepB, hrestB, hfsB⟩ := unzipLoop_ok_cons hmide
  have hstatB : statExists fsB (destPathOf ctx e) = true :=
    unzipStep_ok_file_exists hskip hdir hstepB
  have hstatFs1 : statExists fs1 (destPathOf ctx e) = true := by
    rw [← hfs1, ← hfsB]
    exact unzipLoop_stat_mono rest hstatB
  have hdestOk : destOk ctx e = true :=
    unzipLoop_ok_destOk hrun1 e (by simp) hskip
  have hpre2 : ∀ e2 ∈ pre, stepSkips ctx.opts e2 = true ∨
      (e2.isDir = true ∧ destOk ctx e2 = true) := by
    intro e2 he2
    rcases hpre e2 he2 with h | h
    · exact Or.inl h
    · by_cases hs2 : stepSkips ctx.opts e2 = true
      · exact Or.inl hs2
      · exact Or.inr ⟨h, unzipLoop_ok_destOk hrun1 e2
          (List.mem_append_left _ he2) (by simpa using hs2)⟩
  have hpreok := unzipLoop_pre_ok hpre2 fs1
  have hpreeq : unzipLoop ctx fs1 pre =
      ((unzipLoop ctx fs1 pre).1, (unzipLoop ctx fs1 pre).2.1, none) := by
    rw [unzipLoop_eta, hpreok]
  have hstatC : statExists (unzipLoop ctx fs1 pre).1 (destPathOf ctx e) = true :=
    unzipLoop_stat_mono pre hstatFs1
  have hcol := unzipStep_collision (unzipLoop ctx fs1 pre).1 hskip hdestOk hdir hov hstatC
  rw [unzipLoop_append_ok hpreeq (e :: rest), unzipLoop_cons_err hcol rest]
  exact ⟨(unzipLoop ctx fs1 pre).1, (unzipLoop ctx fs1 pre).2.1 ++ [], rfl⟩

/-- Second extraction of the same archive with overwrite on: it succeeds
from any starting state once it succeeded from one. -/
theorem second_run_overwrite {ctx : UnzipCtx} (hov : ctx.opts.overwrite = true) :
    ∀ {es : List ZipEntry} {fs fs1 : FS} {out1 : List String},
      unzipLoop ctx fs es = (fs1, out1, none) →
      ∀ fs2, (unzipLoop ctx fs2 es).2.2 = none := by
  intro es
  induction es with
  | nil => intro fs fs1 out1 _ fs2; rfl
  | cons e rest ih =>
    intro fs fs1 out1 h fs2
    obtain ⟨fsB, outB, hstepB, hrestB, -⟩ := unzipLoop_ok_cons h
    have hresteq : unzipLoop ctx fsB rest =
        ((unzipLoop ctx fsB rest).1, (unzipLoop ctx fsB rest).2.1, none) := by
      rw [unzipLoop_eta, hrestB]
    by_cases hskip : stepSkips ctx.opts e = true
    · rw [unzipLoop_cons_ok (unzipStep_skip fs2 hskip)]
      exact ih hresteq fs2
    · have hskipf : stepSkips ctx.opts e = false := by simpa using hskip
      have hdestOk := unzipStep_ok_destOk hskipf hstepB
      cases hdir : e.isDir with
      | true =>
        rw [unzipLoop_cons_ok (unzipStep_dir fs2 hskipf hdestOk hdir)]
        exact ih hresteq _
      | false =>
        rw [unzipLoop_cons_ok (unzipStep_extract fs2 hskipf hdestOk hdir (Or.inl hov))]
        exact ih hresteq _

/-! ## Characterisation of the recursive walk -/

/-- A file in the source tree together with the visited directory paths above
it (the walk root included), its content, mode and modification time. -/
structure SrcFile where
  path : String
  ancestors : List String
  content : String
  mode : Nat
  mtime : Int

mutual
/-- All files under a node visited at `path`, with their ancestor
directories. -/
def filesUnder (path : String) : FSNode → List SrcFile
  | .file c m t => [⟨path, [], c, m, t⟩]
  | .dir ch => (filesUnderForest path ch).map fun f =>
      { f with ancestors := path :: f.ancestors }
/-- All files under the children of a directory at `path`. -/
def filesUnderForest (path : String) : FSForest → List SrcFile
  | .nil => []
  | .cons n node rest =>
    filesUnder (path ++ "/" ++ n) node ++ filesUnderForest path rest
end

/-- The claim-side condition for a file to be archived: neither the file nor
any visited directory above it matches an exclusion pattern. -/
def keepFile (opts : ZipOptions) (f : SrcFile) : Bool :=
  !matchesAny f.path opts.excludePatterns &&
    f.ancestors.all fun a => !matchesAny a opts.excludePatterns

mutual
theorem walkNode_spec (opts : ZipOptions) (path : String) (node : FSNode) :
    (walkNode opts path node).1 =
      ((filesUnder path node).filter (keepFile opts)).map fun f =>
        (writeFileToZip f.path f.content f.mode f.mtime opts).1 := by
  match node with
  | .file c m t =>
    rw [walkNode, filesUnder]
    by_cases hm : matchesAny path opts.excludePatterns
    · rw [if_pos hm]
      simp [keepFile, hm]
    · rw [if_neg hm]
      simp [keepFile, hm]
  | .dir ch =>
    rw [walkNode, filesUnder]
    by_cases hm : matchesAny path opts.excludePatterns
    · rw [if_pos hm]
      rw [List.filter_map]
      have hall : ∀ f ∈ filesUnderForest path ch,
          (keepFile opts ∘ fun f => { f with ancestors := path :: f.ancestors }) f
            = false := by
        intro f _
        simp [keepFile, hm]
      rw [List.filter_eq_nil_iff.mpr (by intro a ha; rw [hall a ha]; simp)]
      rfl
    · rw [if_neg hm]
      rw [List.filter_map, List.map_map]
      have hcomp : ∀ f ∈ filesUnderForest path ch,
          (keepFile opts ∘ fun f => { f with ancestors := path :: f.ancestors }) f =
            keepFile opts f := by
        intro f _
        simp only [Function.comp_apply, keepFile, List.all_cons]
        rw [show matchesAny path opts.excludePatterns = false from by simpa using hm]
        simp
      rw [List.filter_congr hcomp]
      rw [walkForest_spec opts path ch]
      exact List.map_congr_left fun x _ => rfl
theorem walkForest_spec (opts : ZipOptions) (path : String) (f : FSForest) :
    (walkForest opts path f).1 =
      ((filesUnderForest path f).filter (keepFile opts)).map fun f =>
        (writeFileToZip f.path f.content f.mode f.mtime opts).1 := by
  match f with
  | .nil => rfl
  | .cons n node rest =>
    rw [walkForest, filesUnderForest]
    simp only [List.filter_append, List.map_append]
    rw [← walkNode_spec opts (path ++ "/" ++ n) node, ← walkForest_spec opts path rest]
end

/-! ## Method and shape invariants of the writer -/

theorem writeFileToZip_method (path content : String) (mode : Nat) (mtime : Int)
    (opts : ZipOptions) :
    (writeFileToZip path content mode mtime opts).1.method =
      (if opts.compressionLevel = 0 then Method.store else Method.deflate) := rfl

theorem walkNode_isDir (opts : ZipOptions) (path : String) (node : FSNode) :
    ∀ e ∈ (walkNode opts path node).1, e.isDir = false := by
  intro e he
  rw [walkNode_spec] at he
  obtain ⟨f, -, rfl⟩ := List.mem_map.mp he
  rfl

theorem walkNode_method (opts : ZipOptions) (path : String) (node : FSNode) :
    ∀ e ∈ (walkNode opts path node).1,
      e.method = (if opts.compressionLevel = 0 then Method.store else Method.deflate) := by
  intro e he
  rw [walkNode_spec] at he
  obtain ⟨f, -, rfl⟩ := List.mem_map.mp he
  rfl

theorem addToZip_method {roots : List (String × FSNode)} {path : String}
    {opts : ZipOptions} {es : List ZipEntry} {out : List String}
    (h : addToZip roots path opts = .ok (es, out)) :
    ∀ e ∈ es,
      e.method = (if opts.compressionLevel = 0 then Method.store else Method.deflate) := by
  rw [addToZip] at h
  split at h
  · cases h
  · rename_i ch hlook
    split at h
    · cases h
      intro e he
      cases he
    · have h2 : walkNode opts path (.dir ch) = (es, out) := by
        injection h
      have hes : (walkNode opts path (.dir ch)).1 = es := congrArg Prod.fst h2
      intro e he
      rw [← hes] at he
      exact walkNode_method opts path _ e he
  · rename_i content mode mtime
    split at h
    · cases h
      intro e he
      cases he
    · cases h
      intro e he
      rw [List.mem_singleton] at he
      subst he
      rfl

theorem zipAll_method : ∀ (l : List String) {roots : List (String × FSNode)}
    {opts : ZipOptions} {es : List ZipEntry} {out : List String},
    zipAll roots opts l = .ok (es, out) →
    ∀ e ∈ es,
      e.method = (if opts.compressionLevel = 0 then Method.store else Method.deflate) := by
  intro l
  induction l with
  | nil =>
    intro roots opts es out h e he
    rw [zipAll] at h
    cases h
    cases he
  | cons p rest ih =>
    intro roots opts es out h e he
    rw [zipAll] at h
    split at h
    · cases h
    · rename_i p1 hadd
      split at h
      · cases h
      · rename_i p2 hrest
        cases h
        rcases List.mem_append.mp he with he | he
        · exact addToZip_method hadd e he
        · exact ih hrest e he

/-- Discharging the per-pattern test of `matchesAny`. -/
theorem matchOk_iff (r : Except Unit Bool) :
    (match r with | .ok true => true | _ => false) = true ↔ r = .ok true := by
  match r with
  | .error e => simp
  | .ok true => simp
  | .ok false => simp

/-! ## The claims -/

/-- C1 (corrected).  For every archive entry the extractor processes (an
entry not skipped by the pattern filter), if the resolved destination is
neither the resolved output root nor strictly within it (root plus
separator as a prefix), the whole extraction aborts with the path-traversal
error naming the offending entry: the file system stays exactly as it was
after the preceding entries and nothing is created from the entry or from
later ones; no directory exemption exists, so directory entries are checked
the same way.  In particular, with `JunkPaths` unset and empty
`FilePatterns` — the original claim said every options value, but
`JunkPaths` junks the traversal away and a non-matching pattern list skips
the entry — an entry named `../../etc/passwd` aborts extraction into any
simple absolute output root whose segment list is not a prefix of the
resolved attack path. -/
theorem c1_zip_slip_guard :
    (∀ (ctx : UnzipCtx) (fs fs1 : FS) (pre rest : List ZipEntry) (e : ZipEntry)
        (out1 : List String),
      unzipLoop ctx fs pre = (fs1, out1, none) →
      stepSkips ctx.opts e = false →
      destOk ctx e = false →
      unzipLoop ctx fs (pre ++ e :: rest) =
        (fs1, out1, some ("illegal file path: " ++ e.name))) ∧
    (∀ (rd cwd : String) (ov : Bool) (fs fs1 : FS) (pre rest : List ZipEntry)
        (e : ZipEntry) (out1 : List String),
      simpleRel rd = true →
      ¬ (splitSegs rd.data <+: passwdResolvedSegs (splitSegs rd.data)) →
      e.name = "../../etc/passwd" →
      unzipLoop (mkCtx cwd ⟨"/" ++ rd, ov, false, []⟩) fs pre = (fs1, out1, none) →
      Unzip cwd (some (pre ++ e :: rest)) ⟨"/" ++ rd, ov, false, []⟩ fs =
        (fs1, out1, some "illegal file path: ../../etc/passwd")) := by
  constructor
  · intro ctx fs fs1 pre rest e out1 hpre hskip hguard
    rw [unzipLoop_append_ok hpre (e :: rest),
      unzipLoop_cons_err (unzipStep_guard_fail fs1 hskip hguard) rest]
    simp
  · intro rd cwd ov fs fs1 pre rest e out1 hrd hside hname hpre
    have hskip : stepSkips (mkCtx cwd ⟨"/" ++ rd, ov, false, []⟩).opts e = false :=
      stepSkips_empty rfl e
    have hguard := @destOk_passwd_false rd cwd ⟨"/" ++ rd, ov, false, []⟩ _
      hrd rfl rfl hname hside
    rw [show Unzip cwd (some (pre ++ e :: rest)) ⟨"/" ++ rd, ov, false, []⟩ fs =
      unzipLoop (mkCtx cwd ⟨"/" ++ rd, ov, false, []⟩) fs (pre ++ e :: rest) from rfl]
    rw [unzipLoop_append_ok hpre (e :: rest),
      unzipLoop_cons_err (unzipStep_guard_fail fs1 hskip hguard) rest]
    rw [hname]
    simp

theorem c1_zip_slip_guard_witness :
    (simpleRel "out" = true ∧
      ¬ (splitSegs "out".data <+: passwdResolvedSegs (splitSegs "out".data))) ∧
    Unzip "/" (some [⟨"../../etc/passwd", false, 420, 0, "evil", .deflate, 0⟩])
        ⟨"/" ++ "out", true, false, []⟩ emptyFS =
      (emptyFS, [], some "illegal file path: ../../etc/passwd") :=
  ⟨⟨by decide, by decide⟩,
    c1_zip_slip_guard.2 "out" "/" true emptyFS emptyFS [] []
      ⟨"../../etc/passwd", false, 420, 0, "evil", .deflate, 0⟩ []
      (by decide) (by decide) rfl rfl⟩

/-- C1 counterexample.  With `JunkPaths` set — one options value — the
entry named `../../etc/passwd` does not fail: the name is junked to
`passwd`, extraction succeeds and a file is created (inside the root), so
the claimed failure for every options value does not hold. -/
theorem c1_counterexample :
    (Unzip "/" (some [⟨"../../etc/passwd", false, 420, 7, "evil", .deflate, 0⟩])
        ⟨"/out", true, true, []⟩ emptyFS).2.2 = none ∧
    (Unzip "/" (some [⟨"../../etc/passwd", false, 420, 7, "evil", .deflate, 0⟩])
        ⟨"/out", true, true, []⟩ emptyFS).1.files "/out/passwd" =
      some ⟨"evil", 420, 7⟩ :=
  ⟨by decide, by decide⟩

/-- C2 (corrected).  Archiving a set of source files whose paths are made of
plain segments (no `.`, no `..`, no empty segment) and pairwise distinct,
with `Zip` recursive and without exclusions, and extracting the resulting
entries with `Unzip` with `Overwrite` on, no patterns and no junking into an
absolute output root, succeeds and reproduces every original content
byte-for-byte under the root.  The original claim quantified over every set
of source files; a source path with `..` segments makes the extraction
abort instead (see the counterexample), which forces the restriction. -/
theorem c2_round_trip (srcs : List SrcSpec) (rd cwd : String) (lvl : Int) (fs0 : FS)
    (hsim : ∀ s ∈ srcs, simpleRel s.path = true)
    (hrd : simpleRel rd = true)
    (hnd : (srcs.map SrcSpec.path).Nodup) :
    ∃ res, Zip (srcRootsOf srcs) (srcs.map SrcSpec.path) ⟨true, lvl, []⟩ = .ok res ∧
      (Unzip cwd (some res.entries) ⟨"/" ++ rd, true, false, []⟩ fs0).2.2 = none ∧
      ∀ s ∈ srcs, ∃ df,
        (Unzip cwd (some res.entries) ⟨"/" ++ rd, true, false, []⟩ fs0).1.files
          ("/" ++ rd ++ "/" ++ s.path) = some df ∧ df.content = s.content := by
  have hzip := @zipAll_files srcs lvl hnd srcs (fun s hs => hs)
  have hZ : Zip (srcRootsOf srcs) (srcs.map SrcSpec.path) ⟨true, lvl, []⟩ =
      .ok ⟨srcs.map (entryOf ⟨true, lvl, []⟩),
        srcs.map (fun s => "  adding: " ++ s.path),
        if (lvl < -1 ∨ lvl > 9) then -1 else lvl⟩ := by
    rw [Zip.eq_def, hzip]
  refine ⟨_, hZ, ?_, ?_⟩
  · exact (@unzipLoop_roundtrip rd cwd ⟨"/" ++ rd, true, false, []⟩ lvl
      hrd rfl rfl rfl rfl srcs fs0 hsim hnd).1
  · exact (@unzipLoop_roundtrip rd cwd ⟨"/" ++ rd, true, false, []⟩ lvl
      hrd rfl rfl rfl rfl srcs fs0 hsim hnd).2

theorem c2_round_trip_witness :
    ((∀ s ∈ ([⟨"hello.txt", "hello world", 420, 3⟩,
        ⟨"sub/nested.txt", "nested content", 420, 4⟩] : List SrcSpec),
      simpleRel s.path = true) ∧ simpleRel "out" = true ∧
      (([⟨"hello.txt", "hello world", 420, 3⟩,
        ⟨"sub/nested.txt", "nested content", 420, 4⟩] : List SrcSpec).map
          SrcSpec.path).Nodup) ∧
    ∃ res, Zip (srcRootsOf [⟨"hello.txt", "hello world", 420, 3⟩,
        ⟨"sub/nested.txt", "nested content", 420, 4⟩])
        (([⟨"hello.txt", "hello world", 420, 3⟩,
          ⟨"sub/nested.txt", "nested content", 420, 4⟩] : List SrcSpec).map
            SrcSpec.path) ⟨true, -1, []⟩ = .ok res ∧
      (Unzip "/" (some res.entries) ⟨"/" ++ "out", true, false, []⟩ emptyFS).2.2 =
        none ∧
      ∀ s ∈ ([⟨"hello.txt", "hello world", 420, 3⟩,
          ⟨"sub/nested.txt", "nested content", 420, 4⟩] : List SrcSpec), ∃ df,
        (Unzip "/" (some res.entries) ⟨"/" ++ "out", true, false, []⟩
          emptyFS).1.files ("/" ++ "out" ++ "/" ++ s.path) = some df ∧
          df.content = s.content :=
  ⟨⟨by decide, by decide, by decide⟩,
    c2_round_trip [⟨"hello.txt", "hello world", 420, 3⟩,
      ⟨"sub/nested.txt", "nested content", 420, 4⟩] "out" "/" (-1) emptyFS
      (by decide) (by decide) (by decide)⟩

/-- C2 counterexample.  A source file named `../evil.txt` archives fine but
its extraction aborts with a path-traversal error and reproduces nothing,
refuting the round trip for arbitrary source sets. -/
theorem c2_counterexample :
    Zip (srcRootsOf [⟨"../evil.txt", "evil", 420, 0⟩]) ["../evil.txt"]
        ⟨true, -1, []⟩ =
      .ok ⟨[⟨"../evil.txt", false, 420, 0, "evil", .deflate, 0⟩],
        ["  adding: ../evil.txt"], -1⟩ ∧
    (Unzip "/" (some [⟨"../evil.txt", false, 420, 0, "evil", .deflate, 0⟩])
        ⟨"/out", true, false, []⟩ emptyFS).2.2 =
      some "illegal file path: ../evil.txt" ∧
    (Unzip "/" (some [⟨"../evil.txt", false, 420, 0, "evil", .deflate, 0⟩])
        ⟨"/out", true, false, []⟩ emptyFS).1.files "/evil.txt" = none ∧
    (Unzip "/" (some [⟨"../evil.txt", false, 420, 0, "evil", .deflate, 0⟩])
        ⟨"/out", true, false, []⟩ emptyFS).1.files "/out/../evil.txt" = none :=
  ⟨by decide, by decide, by decide, by decide⟩

/-- C3 (confirmed).  For a processed file entry whose destination passes the
guard: with `Overwrite` off and anything already at the destination the step
aborts with the `file exists` error naming the path; with `Overwrite` on the
same step succeeds, replacing the content at the destination.  Hence
extracting an archive twice into the same directory with `Overwrite` off
fails on the second run with the collision error naming the first processed
file entry, and with `Overwrite` on both runs succeed. -/
theorem c3_overwrite_collision :
    (∀ (ctx : UnzipCtx) (fs : FS) (e : ZipEntry),
      stepSkips ctx.opts e = false → destOk ctx e = true → e.isDir = false →
      ctx.opts.overwrite = false → statExists fs (destPathOf ctx e) = true →
      unzipStep ctx fs e =
        .error ("file exists: " ++ destPathOf ctx e ++ " (use overwrite option)")) ∧
    (∀ (ctx : UnzipCtx) (fs : FS) (e : ZipEntry),
      stepSkips ctx.opts e = false → destOk ctx e = true → e.isDir = false →
      ctx.opts.overwrite = true →
      ∃ fs2, unzipStep ctx fs e = .ok (fs2, ["  inflating: " ++ destPathOf ctx e]) ∧
        ∃ df, fs2.files (destPathOf ctx e) = some df ∧ df.content = e.content) ∧
    (∀ (cwd : String) (opts : UnzipOptions) (fs0 fs1 : FS) (pre rest : List ZipEntry)
        (e : ZipEntry) (out1 : List String),
      opts.overwrite = false →
      Unzip cwd (some (pre ++ e :: rest)) opts fs0 = (fs1, out1, none) →
      (∀ e2 ∈ pre, stepSkips opts e2 = true ∨ e2.isDir = true) →
      stepSkips opts e = false → e.isDir = false →
      ∃ fs2 out2, Unzip cwd (some (pre ++ e :: rest)) opts fs1 =
        (fs2, out2, some ("file exists: " ++ destPathOf (mkCtx cwd opts) e ++
          " (use overwrite option)"))) ∧
    (∀ (cwd : String) (opts : UnzipOptions) (es : List ZipEntry) (fs0 fs1 : FS)
        (out1 : List String),
      opts.overwrite = true →
      Unzip cwd (some es) opts fs0 = (fs1, out1, none) →
      (Unzip cwd (some es) opts fs1).2.2 = none) := by
  refine ⟨?_, ?_, ?_, ?_⟩
  · intro ctx fs e hskip hok hdir hov hex
    exact unzipStep_collision fs hskip hok hdir hov hex
  · intro ctx fs e hskip hok hdir hov
    refine ⟨extractResult ctx fs e, unzipStep_extract fs hskip hok hdir (Or.inl hov), ?_⟩
    obtain ⟨df, hdf, hc, -⟩ := extractResult_content ctx fs e
    exact ⟨df, hdf, hc⟩
  · intro cwd opts fs0 fs1 pre rest e out1 hov hrun1 hpre hskip hdir
    exact second_run_collision hov (show unzipLoop (mkCtx cwd opts) fs0
      (pre ++ e :: rest) = (fs1, out1, none) from hrun1) hpre hskip hdir
  · intro cwd opts es fs0 fs1 out1 hov hrun1
    exact second_run_overwrite hov (show unzipLoop (mkCtx cwd opts) fs0 es =
      (fs1, out1, none) from hrun1) fs1

theorem c3_overwrite_collision_witness :
    ((Unzip "/" (some ([] ++ (⟨"a.txt", false, 420, 3, "hi", .deflate, 0⟩ : ZipEntry)
        :: [])) ⟨"/out", false, false, []⟩ emptyFS).2.2 = none) ∧
    (∃ fs2 out2, Unzip "/" (some ([] ++ (⟨"a.txt", false, 420, 3, "hi", .deflate, 0⟩
        : ZipEntry) :: [])) ⟨"/out", false, false, []⟩
        (Unzip "/" (some ([] ++ (⟨"a.txt", false, 420, 3, "hi", .deflate, 0⟩
          : ZipEntry) :: [])) ⟨"/out", false, false, []⟩ emptyFS).1 =
      (fs2, out2, some ("file exists: " ++
        destPathOf (mkCtx "/" ⟨"/out", false, false, []⟩)
          ⟨"a.txt", false, 420, 3, "hi", .deflate, 0⟩ ++
        " (use overwrite option)"))) := by
  have hrun1 : Unzip "/" (some ([] ++ (⟨"a.txt", false, 420, 3, "hi", .deflate, 0⟩
      : ZipEntry) :: [])) ⟨"/out", false, false, []⟩ emptyFS =
      ((Unzip "/" (some ([] ++ (⟨"a.txt", false, 420, 3, "hi", .deflate, 0⟩
        : ZipEntry) :: [])) ⟨"/out", false, false, []⟩ emptyFS).1,
       (Unzip "/" (some ([] ++ (⟨"a.txt", false, 420, 3, "hi", .deflate, 0⟩
        : ZipEntry) :: [])) ⟨"/out", false, false, []⟩ emptyFS).2.1, none) := by
    have h0 : (Unzip "/" (some ([] ++ (⟨"a.txt", false, 420, 3, "hi", .deflate, 0⟩
        : ZipEntry) :: [])) ⟨"/out", false, false, []⟩ emptyFS).2.2 = none := by
      decide
    conv_lhs => rw [show (Unzip "/" (some ([] ++
      (⟨"a.txt", false, 420, 3, "hi", .deflate, 0⟩ : ZipEntry) :: []))
      ⟨"/out", false, false, []⟩ emptyFS) =
      ((Unzip "/" (some ([] ++ (⟨"a.txt", false, 420, 3, "hi", .deflate, 0⟩
        : ZipEntry) :: [])) ⟨"/out", false, false, []⟩ emptyFS).1,
       (Unzip "/" (some ([] ++ (⟨"a.txt", false, 420, 3, "hi", .deflate, 0⟩
        : ZipEntry) :: [])) ⟨"/out", false, false, []⟩ emptyFS).2.1,
       (Unzip "/" (some ([] ++ (⟨"a.txt", false, 420, 3, "hi", .deflate, 0⟩
        : ZipEntry) :: [])) ⟨"/out", false, false, []⟩ emptyFS).2.2) from rfl]
    rw [h0]
  constructor
  · have := congrArg (fun p => p.2.2) hrun1
    simpa using this
  · exact c3_overwrite_collision.2.2.1 "/" ⟨"/out", false, false, []⟩ emptyFS _
      [] [] ⟨"a.txt", false, 420, 3, "hi", .deflate, 0⟩ _ rfl hrun1
      (by intro e2 he2; cases he2) (by decide) rfl

/-- C4 (confirmed).  The pattern matcher returns false on an empty (or nil)
pattern list; otherwise it returns true exactly when some pattern matches —
with `filepath.Match` reporting a match and no error — against the base name
(final path segment) of the name, never the full path; and a syntactically
invalid pattern (one on which `Match` errors) contributes nothing and raises
no error. -/
theorem c4_pattern_matcher (name : String) (patterns : List String) :
    matchesAny name [] = false ∧
    (matchesAny name patterns = true ↔
      ∃ p ∈ patterns, matchGlobStr p (basePath name) = .ok true) ∧
    (∀ p, matchGlobStr p (basePath name) = .error () →
      matchesAny name (p :: patterns) = matchesAny name patterns) := by
  refine ⟨rfl, ?_, ?_⟩
  · rw [matchesAny, List.any_eq_true]
    constructor
    · intro ⟨p, hp, hm⟩
      exact ⟨p, hp, (matchOk_iff _).mp hm⟩
    · intro ⟨p, hp, hm⟩
      exact ⟨p, hp, (matchOk_iff _).mpr hm⟩
  · intro p hperr
    rw [matchesAny, matchesAny, List.any_cons, hperr]
    simp

theorem c4_pattern_matcher_witness :
    (matchGlobStr "[invalid" (basePath "foo.txt") = .error ()) ∧
    matchesAny "foo.txt" ("[invalid" :: ["*.txt"]) = matchesAny "foo.txt" ["*.txt"] := by
  have herr : matchGlobStr "[invalid" (basePath "foo.txt") = .error () := by
    simp [matchGlobStr, basePath, baseChars, matchGlob, scanChunk, scanChunkLoop,
      matchChunk, matchStarLoop, checkRest, matchRanges, getEsc]
  exact ⟨herr, (c4_pattern_matcher "foo.txt" ["*.txt"]).2.2 "[invalid" herr⟩

/-- C5 (confirmed).  Every entry written by `Zip` carries the `stored`
method exactly when the configured compression level is `0` and the
`deflate` method otherwise, and the deflate level registered with the codec
is the configured level when it lies in `-1..9` and the codec default `-1`
otherwise — out-of-range levels fall back silently instead of failing. -/
theorem c5_compression_method (roots : List (String × FSNode))
    (zipFiles : List String) (opts : ZipOptions) (res : ZipResult)
    (h : Zip roots zipFiles opts = .ok res) :
    res.deflateLevel = (if opts.compressionLevel < -1 ∨ opts.compressionLevel > 9
      then -1 else opts.compressionLevel) ∧
    ∀ e ∈ res.entries,
      e.method = (if opts.compressionLevel = 0 then Method.store
        else Method.deflate) := by
  rw [Zip.eq_def] at h
  cases hz : zipAll roots opts zipFiles with
  | error m =>
    rw [hz] at h
    cases h
  | ok p =>
    obtain ⟨es, out⟩ := p
    rw [hz] at h
    dsimp only at h
    have h3 : (⟨es, out, if opts.compressionLevel < -1 ∨ opts.compressionLevel > 9
        then -1 else opts.compressionLevel⟩ : ZipResult) = res := by
      injection h
    rw [← h3]
    exact ⟨rfl, zipAll_method zipFiles hz⟩

theorem c5_compression_method_witness :
    (Zip [("hello.txt", .file "hello world" 420 3)] ["hello.txt"] ⟨false, 0, []⟩ =
      .ok ⟨[⟨"hello.txt", false, 420, 3, "hello world", .store, 0⟩],
        ["  adding: hello.txt"], 0⟩) ∧
    ((⟨[⟨"hello.txt", false, 420, 3, "hello world", .store, 0⟩],
        ["  adding: hello.txt"], 0⟩ : ZipResult).deflateLevel =
      (if (0 : Int) < -1 ∨ (0 : Int) > 9 then -1 else 0) ∧
      ∀ e ∈ (⟨[⟨"hello.txt", false, 420, 3, "hello world", .store, 0⟩],
        ["  adding: hello.txt"], 0⟩ : ZipResult).entries,
        e.method = (if (0 : Int) = 0 then Method.store else Method.deflate)) :=
  ⟨by decide,
    c5_compression_method [("hello.txt", .file "hello world" 420 3)] ["hello.txt"]
      ⟨false, 0, []⟩ _ (by decide)⟩

/-- C6 (confirmed).  When the writer is pointed at a directory with
`Recursive` set, it walks the tree: a directory whose visited path matches an
exclusion pattern contributes nothing (the whole subtree is skipped), and the
entries produced are exactly one per file whose own visited path and all of
whose visited ancestor directories are free of exclusion matches — so an
excluded file is dropped individually, every non-excluded regular file is
appended (as `writeFileToZip` of its path and content), and no directory is
ever written as an entry.  The exclusion test itself, `matchesAny`, compares
patterns against the base name of the visited path. -/
theorem c6_walk_exclusion (roots : List (String × FSNode)) (path : String)
    (ch : FSForest) (opts : ZipOptions)
    (hlook : roots.lookup path = some (.dir ch)) (hrec : opts.recursive = true) :
    addToZip roots path opts = .ok (walkNode opts path (.dir ch)) ∧
    (matchesAny path opts.excludePatterns = true →
      walkNode opts path (.dir ch) = ([], [])) ∧
    (walkNode opts path (.dir ch)).1 =
      ((filesUnder path (.dir ch)).filter (keepFile opts)).map
        (fun f => (writeFileToZip f.path f.content f.mode f.mtime opts).1) ∧
    ∀ e ∈ (walkNode opts path (.dir ch)).1, e.isDir = false := by
  refine ⟨?_, ?_, walkNode_spec opts path (.dir ch), walkNode_isDir opts path (.dir ch)⟩
  · rw [addToZip, hlook]
    simp [hrec]
  · intro hm
    rw [walkNode, if_pos hm]

theorem c6_walk_exclusion_witness :
    ([("d", FSNode.dir (.cons "a.txt" (.file "hi" 420 1) .nil))].lookup "d" =
      some (FSNode.dir (.cons "a.txt" (.file "hi" 420 1) .nil))) ∧
    ((⟨true, 6, []⟩ : ZipOptions).recursive = true) ∧
    addToZip [("d", FSNode.dir (.cons "a.txt" (.file "hi" 420 1) .nil))] "d"
        ⟨true, 6, []⟩ =
      .ok (walkNode ⟨true, 6, []⟩ "d"
        (.dir (.cons "a.txt" (.file "hi" 420 1) .nil))) ∧
    ∀ e ∈ (walkNode (⟨true, 6, []⟩ : ZipOptions) "d"
        (.dir (.cons "a.txt" (.file "hi" 420 1) .nil))).1, e.isDir = false := by
  have h := c6_walk_exclusion [("d", FSNode.dir (.cons "a.txt" (.file "hi" 420 1) .nil))]
    "d" (.cons "a.txt" (.file "hi" 420 1) .nil) ⟨true, 6, []⟩ rfl rfl
  exact ⟨rfl, rfl, h.1, h.2.2.2⟩

/-- C7 (confirmed).  An entry is skipped exactly when `FilePatterns` is
non-empty and the entry name matches none of the patterns (via `matchesAny`,
hence by base name); a skipped entry leaves the file system untouched and
produces no output; with empty `FilePatterns` no entry is skipped; the target
name is the base name of the entry name under `JunkPaths` and the full entry
name otherwise; and a processed file entry is in fact written at the output
directory joined with exactly that target name, with the `inflating` line
reporting that path. -/
theorem c7_filter_and_junk (ctx : UnzipCtx) (e : ZipEntry) :
    (stepSkips ctx.opts e = true ↔
      ctx.opts.filePatterns ≠ [] ∧ matchesAny e.name ctx.opts.filePatterns = false) ∧
    (∀ fs, stepSkips ctx.opts e = true → unzipStep ctx fs e = .ok (fs, [])) ∧
    (ctx.opts.filePatterns = [] → stepSkips ctx.opts e = false) ∧
    targetName ctx.opts e = (if ctx.opts.junkPaths then basePath e.name else e.name) ∧
    (∀ fs, stepSkips ctx.opts e = false → destOk ctx e = true → e.isDir = false →
      (ctx.opts.overwrite = true ∨ statExists fs (destPathOf ctx e) = false) →
      ∃ fs2, unzipStep ctx fs e = .ok (fs2, ["  inflating: " ++
          joinPath ctx.outputDir
            (if ctx.opts.junkPaths then basePath e.name else e.name)]) ∧
        ∃ df, fs2.files (joinPath ctx.outputDir
            (if ctx.opts.junkPaths then basePath e.name else e.name)) = some df ∧
          df.content = e.content) := by
  refine ⟨stepSkips_iff ctx.opts e, fun fs h => unzipStep_skip fs h,
    fun h => stepSkips_empty h e, rfl, ?_⟩
  intro fs hskip hok hdir hcol
  have hdest : destPathOf ctx e = joinPath ctx.outputDir
      (if ctx.opts.junkPaths then basePath e.name else e.name) := rfl
  refine ⟨extractResult ctx fs e, ?_, ?_⟩
  · rw [← hdest]
    exact unzipStep_extract fs hskip hok hdir hcol
  · rw [← hdest]
    obtain ⟨df, hdf, hc, -⟩ := extractResult_content ctx fs e
    exact ⟨df, hdf, hc⟩

theorem c7_filter_and_junk_witness :
    (stepSkips (mkCtx "/" ⟨"/out", false, false, ["*.txt"]⟩).opts
      (⟨"foo.go", false, 420, 3, "x", .deflate, 0⟩ : ZipEntry) = true) ∧
    unzipStep (mkCtx "/" ⟨"/out", false, false, ["*.txt"]⟩) emptyFS
      ⟨"foo.go", false, 420, 3, "x", .deflate, 0⟩ = .ok (emptyFS, []) ∧
    (∃ fs2, unzipStep (mkCtx "/" ⟨"/out", true, true, []⟩) emptyFS
        ⟨"a/b/hello.txt", false, 420, 3, "hi", .deflate, 0⟩ = .ok (fs2,
          ["  inflating: " ++
            joinPath (mkCtx "/" (⟨"/out", true, true, []⟩ : UnzipOptions)).outputDir
              (if (mkCtx "/" (⟨"/out", true, true, []⟩ : UnzipOptions)).opts.junkPaths
                then basePath "a/b/hello.txt" else "a/b/hello.txt")]) ∧
      ∃ df, fs2.files
          (joinPath (mkCtx "/" (⟨"/out", true, true, []⟩ : UnzipOptions)).outputDir
            (if (mkCtx "/" (⟨"/out", true, true, []⟩ : UnzipOptions)).opts.junkPaths
              then basePath "a/b/hello.txt" else "a/b/hello.txt")) = some df ∧
        df.content = "hi") := by
  have hskip : stepSkips (mkCtx "/" ⟨"/out", false, false, ["*.txt"]⟩).opts
      (⟨"foo.go", false, 420, 3, "x", .deflate, 0⟩ : ZipEntry) = true := by
    simp [mkCtx, stepSkips, matchesAny, matchGlobStr, basePath, baseChars, matchGlob,
      scanChunk, scanChunkLoop, matchChunk, matchStarLoop, checkRest]
  refine ⟨hskip, (c7_filter_and_junk (mkCtx "/" ⟨"/out", false, false, ["*.txt"]⟩)
    ⟨"foo.go", false, 420, 3, "x", .deflate, 0⟩).2.1 emptyFS hskip, ?_⟩
  exact (c7_filter_and_junk (mkCtx "/" ⟨"/out", true, true, []⟩)
    ⟨"a/b/hello.txt", false, 420, 3, "hi", .deflate, 0⟩).2.2.2.2 emptyFS
    rfl (by decide) rfl (Or.inl rfl)

/-- C8 (confirmed).  When a source path is a directory and `Recursive` is
off, the writer produces no entry at all for it, only the
`(skipped, not recursive)` diagnostic line, and no error; the archive loop
then continues with the remaining source paths, whose entries and output
follow the diagnostic, and an error from the rest propagates unchanged. -/
theorem c8_nonrecursive_skip (roots : List (String × FSNode)) (path : String)
    (ch : FSForest) (opts : ZipOptions)
    (hlook : roots.lookup path = some (.dir ch)) (hrec : opts.recursive = false) :
    addToZip roots path opts =
      .ok ([], ["  adding: " ++ path ++ "/ (skipped, not recursive)"]) ∧
    (∀ rest es out, zipAll roots opts rest = .ok (es, out) →
      zipAll roots opts (path :: rest) =
        .ok (es, ("  adding: " ++ path ++ "/ (skipped, not recursive)") :: out)) ∧
    (∀ rest m, zipAll roots opts rest = .error m →
      zipAll roots opts (path :: rest) = .error m) := by
  have h1 : addToZip roots path opts =
      .ok ([], ["  adding: " ++ path ++ "/ (skipped, not recursive)"]) := by
    rw [addToZip, hlook]
    simp [hrec]
  refine ⟨h1, ?_, ?_⟩
  · intro rest es out hres
    rw [zipAll, h1, hres]
    rfl
  · intro rest m hres
    rw [zipAll, h1, hres]

theorem c8_nonrecursive_skip_witness :
    ([("d", FSNode.dir .nil)].lookup "d" = some (FSNode.dir .nil)) ∧
    ((⟨false, 6, []⟩ : ZipOptions).recursive = false) ∧
    (zipAll [("d", FSNode.dir .nil)] ⟨false, 6, []⟩ [] = .ok ([], [])) ∧
    addToZip [("d", FSNode.dir .nil)] "d" ⟨false, 6, []⟩ =
      .ok ([], ["  adding: d/ (skipped, not recursive)"]) ∧
    zipAll [("d", FSNode.dir .nil)] ⟨false, 6, []⟩ ["d"] =
      .ok ([], ["  adding: d/ (skipped, not recursive)"]) := by
  have h := c8_nonrecursive_skip [("d", FSNode.dir .nil)] "d" .nil ⟨false, 6, []⟩ rfl rfl
  exact ⟨rfl, rfl, rfl, h.1, h.2.1 [] [] [] rfl⟩

/-- C9 (confirmed).  An unreadable archive yields an error and no partial
list; a readable archive yields exactly one metadata record per entry — files
and directories alike, unfiltered, in archive order — carrying the name, the
uncompressed size, the compressed size, the modification time and the
directory flag of the entry.  The lister takes no file system at all, so it
can write nothing to one. -/
theorem c9_list_metadata (entries : List ZipEntry) :
    listEntries none = .error "open archive" ∧
    ∃ l, listEntries (some entries) = .ok l ∧
      l.length = entries.length ∧
      ∀ (i : Nat) (f : ZipEntry), entries[i]? = some f →
        ∃ le : ListEntry, l[i]? = some le ∧ le.name = f.name ∧
          le.uncompressedSize = f.content.length ∧
          le.compressedSize = f.compressedSize ∧
          le.modified = f.modified ∧ le.isDir = f.isDir := by
  refine ⟨rfl, entries.map mkListEntry, rfl, by simp, ?_⟩
  intro i f hf
  refine ⟨mkListEntry f, ?_, rfl, rfl, rfl, rfl, rfl⟩
  rw [List.getElem?_map, hf]
  rfl

theorem c9_list_metadata_witness :
    (([(⟨"a.txt", false, 420, 3, "hi", .deflate, 0⟩ : ZipEntry),
       ⟨"d/", true, 493, 4, "", .store, 0⟩])[0]? =
      some (⟨"a.txt", false, 420, 3, "hi", .deflate, 0⟩ : ZipEntry)) ∧
    listEntries none = .error "open archive" ∧
    ∃ l, listEntries (some [(⟨"a.txt", false, 420, 3, "hi", .deflate, 0⟩ : ZipEntry),
        ⟨"d/", true, 493, 4, "", .store, 0⟩]) = .ok l ∧ l.length = 2 ∧
      ∃ le, l[0]? = some le ∧ le.name = "a.txt" ∧ le.uncompressedSize = 2 ∧
        le.isDir = false := by
  obtain ⟨h1, l, h2, h3, h4⟩ :=
    c9_list_metadata [(⟨"a.txt", false, 420, 3, "hi", .deflate, 0⟩ : ZipEntry),
      ⟨"d/", true, 493, 4, "", .store, 0⟩]
  refine ⟨by decide, h1, l, h2, by rw [h3]; rfl, ?_⟩
  obtain ⟨le, hle, hname, hsize, -, -, hd⟩ :=
    h4 0 ⟨"a.txt", false, 420, 3, "hi", .deflate, 0⟩ (by decide)
  exact ⟨le, hle, hname, hsize, hd⟩

/-- C10 (confirmed).  When a file entry is extracted, every directory on the
chain of parents of its destination that does not yet exist is created with
the fixed mode `0o755`, whatever modes the archive stores; the mode stored in
the entry is applied to the extracted file itself (together with its content
and its timestamp) when the destination was previously absent. -/
theorem c10_parent_dirs (ctx : UnzipCtx) (fs : FS) (e : ZipEntry)
    (hskip : stepSkips ctx.opts e = false) (hguard : destOk ctx e = true)
    (hdir : e.isDir = false)
    (hcol : ctx.opts.overwrite = true ∨ statExists fs (destPathOf ctx e) = false) :
    ∃ fs2, unzipStep ctx fs e = .ok (fs2, ["  inflating: " ++ destPathOf ctx e]) ∧
      (∀ d ∈ pathPrefixes (dirPath (destPathOf ctx e)),
        fs.dirs d = none → fs2.dirs d = some 0o755) ∧
      (fs.files (destPathOf ctx e) = none →
        fs2.files (destPathOf ctx e) =
          some { content := e.content, mode := e.mode, mtime := e.modified }) := by
  refine ⟨extractResult ctx fs e, unzipStep_extract fs hskip hguard hdir hcol, ?_, ?_⟩
  · intro d hd hnone
    exact extractResult_dirs_missing ctx fs e hd hnone
  · intro hnone
    exact extractResult_fresh_file ctx fs e hnone

theorem c10_parent_dirs_witness :
    ∃ fs2, unzipStep (mkCtx "/" ⟨"/out", false, false, []⟩) emptyFS
        ⟨"a/b/c.txt", false, 420, 9, "hi", .deflate, 0⟩ =
      .ok (fs2, ["  inflating: " ++ destPathOf (mkCtx "/" ⟨"/out", false, false, []⟩)
        ⟨"a/b/c.txt", false, 420, 9, "hi", .deflate, 0⟩]) ∧
      (∀ d ∈ pathPrefixes (dirPath (destPathOf (mkCtx "/" ⟨"/out", false, false, []⟩)
          ⟨"a/b/c.txt", false, 420, 9, "hi", .deflate, 0⟩)),
        emptyFS.dirs d = none → fs2.dirs d = some 0o755) ∧
      (emptyFS.files (destPathOf (mkCtx "/" ⟨"/out", false, false, []⟩)
          ⟨"a/b/c.txt", false, 420, 9, "hi", .deflate, 0⟩) = none →
        fs2.files (destPathOf (mkCtx "/" ⟨"/out", false, false, []⟩)
          ⟨"a/b/c.txt", false, 420, 9, "hi", .deflate, 0⟩) =
          some { content := "hi", mode := 420, mtime := 9 }) :=
  c10_parent_dirs (mkCtx "/" ⟨"/out", false, false, []⟩) emptyFS
    ⟨"a/b/c.txt", false, 420, 9, "hi", .deflate, 0⟩ rfl (by decide) rfl
    (Or.inr rfl)

end Ziplib
